import Mathlib

/-!
# Verification of the durable workflow execution engine

A shallow embedding of the engine's core (`executor.py`, `actions.py`,
`database.py`) together with proofs about the claims of the specification.

Modelling conventions:
* SQLite tables are Lean lists of records mirroring the schema of
  `database.py` (`workflows`, `runs`, `steps`, `step_results`, `orders`).
* ISO-8601 timestamps produced by `_now()` are modelled as a `Nat` clock held
  in the execution state; each call to `_now()` reads the clock and advances
  it, so distinct calls give distinct timestamps.
* `uuid.uuid4()` is modelled as a fresh-token counter `nextUuid` in the
  execution state: each generation returns the counter and increments it.
  (uuid4 collisions are not representable.)
* The simulated task body `execute_task` (`tasks.py`) sleeps and then fails
  with probability `fail_probability`; its outcome is nondeterministic, so
  the embedding takes the outcome (`Except TaskError String`) as a parameter;
  within `execute_run` a stream `oracle : Nat → Except TaskError String`
  supplies the outcome of the i-th task invocation.
* `conn.commit()` makes the current state durable; the embedding is already
  state-passing, so commits delimit the observable states.  The claim-key
  phase of `execute_step` (its first commit) is split off as
  `claim_key_phase` so that the intermediate committed state can be named.
-/

/-! ## Basic data -/

/-! Idempotency keys and ISO-8601 timestamps are both modelled as `Nat`
(fresh tokens from the uuid counter, ticks of the clock). -/

inductive StepStatus where
  | pending
  | running
  | completed
  | failed
deriving DecidableEq, Repr

inductive RunStatus where
  | pending
  | running
  | completed
  | failed
deriving DecidableEq, Repr

/-- `models.WorkflowStepConfig`: `action`, `duration_seconds`,
`fail_probability`, `max_retries`.  The two float fields are modelled as
rationals. -/
structure StepConfig where
  action : String
  durationSeconds : Rat
  failProbability : Rat
  maxRetries : Nat
deriving DecidableEq, Repr

/-- One step of a stored workflow definition: its definition-level `id` and
its `config` (the part of the serialized definition `execute_run` reads). -/
structure DefStep where
  id : String
  config : StepConfig
deriving DecidableEq, Repr

/-- A row of the `workflows` table.  The source stores `definition` as a JSON
string and parses it with `json.loads`; the embedding stores the parsed list
of steps directly (serialization is modelled away). -/
structure WorkflowRow where
  id : Nat
  name : String
  defSteps : List DefStep
  createdAt : Nat
deriving DecidableEq, Repr

/-- A row of the `runs` table (schema of `database.py`: `id`, `workflow_id`,
`status`, `started_at`, `completed_at`, `created_at`; there is no `order_id`
column). -/
structure RunRow where
  id : Nat
  workflowId : Nat
  status : RunStatus
  startedAt : Option Nat
  completedAt : Option Nat
  createdAt : Nat
deriving DecidableEq, Repr

/-- A row of the `steps` table. -/
structure StepRow where
  id : Nat
  runId : Nat
  stepId : String
  stepIndex : Nat
  status : StepStatus
  idempotencyKey : Option Nat
  retryCount : Nat
  maxRetries : Nat
  startedAt : Option Nat
  completedAt : Option Nat
  errorMessage : Option String
  createdAt : Nat
deriving DecidableEq, Repr

/-- A row of the `step_results` table (`idempotency_key` is the primary
key). -/
structure StepResultRow where
  idempotencyKey : Nat
  stepId : Nat
  resultData : Option String
  createdAt : Nat
deriving DecidableEq, Repr

/-- A row of the `orders` table (demo domain).  `amount` is a REAL, modelled
as a rational. -/
structure OrderRow where
  id : String
  status : String
  amount : Rat
  createdAt : Nat
  updatedAt : Nat
deriving DecidableEq, Repr

/-- The whole SQLite database of `database.py`. -/
structure DB where
  workflows : List WorkflowRow
  runs : List RunRow
  steps : List StepRow
  stepResults : List StepResultRow
  orders : List OrderRow
deriving DecidableEq, Repr

/-- Execution state: the (committed) database plus the modelled clock and
uuid source. -/
structure ExecSt where
  db : DB
  clock : Nat
  nextUuid : Nat
deriving DecidableEq, Repr

/-- `_now()`: read the clock, advance it. -/
def nowTick (s : ExecSt) : Nat × ExecSt :=
  (s.clock, { s with clock := s.clock + 1 })

/-- `uuid.uuid4()`: a fresh opaque token. -/
def freshUuid (s : ExecSt) : Nat × ExecSt :=
  (s.nextUuid, { s with nextUuid := s.nextUuid + 1 })

/-- `TaskExecutionError` of `tasks.py`. -/
structure TaskError where
  msg : String
deriving DecidableEq, Repr

/-! ## Store operations (`executor.py` CRUD helpers)

The variable-keyword `update_*_status` helpers take one `Option` parameter
per allowed field; `none` means the field was not passed (left unchanged),
`some v` means it was passed with value `v` (no call site passes SQL NULL).
-/

/-- `update_run_status(conn, run_id, status, **kwargs)`; allowed kwargs
`started_at`, `completed_at`.  Does not commit. -/
def update_run_status (db : DB) (runId : Nat) (status : RunStatus)
    (startedAt : Option Nat) (completedAt : Option Nat) : DB :=
  { db with runs := db.runs.map fun r =>
      if r.id = runId then
        { r with
          status := status
          startedAt := match startedAt with | some t => some t | none => r.startedAt
          completedAt := match completedAt with | some t => some t | none => r.completedAt }
      else r }

/-- `update_step_status(conn, step_id, status, **kwargs)`; allowed kwargs
`started_at`, `completed_at`, `error_message`, `idempotency_key`,
`retry_count`.  Does not commit. -/
def update_step_status (db : DB) (stepId : Nat) (status : StepStatus)
    (startedAt : Option Nat) (completedAt : Option Nat)
    (errorMessage : Option String) (idempotencyKey : Option Nat)
    (retryCount : Option Nat) : DB :=
  { db with steps := db.steps.map fun st =>
      if st.id = stepId then
        { st with
          status := status
          startedAt := match startedAt with | some t => some t | none => st.startedAt
          completedAt := match completedAt with | some t => some t | none => st.completedAt
          errorMessage := match errorMessage with | some e => some e | none => st.errorMessage
          idempotencyKey := match idempotencyKey with | some k => some k | none => st.idempotencyKey
          retryCount := match retryCount with | some c => c | none => st.retryCount }
      else st }

/-- `insert_step_result(conn, idempotency_key, step_id, result_data)`:
appends a row; calls `_now()` for `created_at`.  Does not commit. -/
def insert_step_result (s : ExecSt) (idemKey : Nat) (stepId : Nat)
    (resultData : Option String) : ExecSt :=
  let (t, s) := nowTick s
  { s with db := { s.db with stepResults :=
      s.db.stepResults ++ [⟨idemKey, stepId, resultData, t⟩] } }

/-- `check_step_result(conn, idempotency_key)`. -/
def check_step_result (db : DB) (idemKey : Nat) : Option StepResultRow :=
  db.stepResults.find? (·.idempotencyKey = idemKey)

/-- `get_run_detail(conn, run_id)`: a JOIN with `workflows`, so it returns
`none` when either the run or its workflow is missing. -/
def get_run_detail (db : DB) (runId : Nat) : Option RunRow :=
  match db.runs.find? (·.id = runId) with
  | none => none
  | some r => if (db.workflows.find? (·.id = r.workflowId)).isSome then some r else none

/-- `get_workflow(conn, workflow_id)`. -/
def get_workflow (db : DB) (workflowId : Nat) : Option WorkflowRow :=
  db.workflows.find? (·.id = workflowId)

/-- `get_steps_for_run(conn, run_id)`: all steps of the run ordered by
`step_index`. -/
def get_steps_for_run (db : DB) (runId : Nat) : List StepRow :=
  List.insertionSort (fun a b => a.stepIndex ≤ b.stepIndex)
    (db.steps.filter (·.runId = runId))

/-- `create_run(conn, workflow_id)` (`executor.py`): inserts a run in
`pending` status with NULL `started_at`/`completed_at` and returns the new
run id.  Its only parameters are the connection and `workflow_id`; the
inserted row carries no order information (the `runs` schema has no
`order_id` column). -/
def create_run (s : ExecSt) (workflowId : Nat) : ExecSt × Nat :=
  let (runId, s) := freshUuid s
  let (t, s) := nowTick s
  ({ s with db := { s.db with runs :=
      s.db.runs ++ [⟨runId, workflowId, RunStatus.pending, none, none, t⟩] } }, runId)

/-! ## Action dispatch (`actions.py`) -/

/-- `validate_order`: transition `pending -> validated`; checks the order
exists, is `pending`, and has `amount > 0`; raises (returns `.error`) before
any write otherwise. -/
def validate_order (orders : List OrderRow) (orderId : String) (t : Nat) :
    Except String (List OrderRow) :=
  match orders.find? (·.id = orderId) with
  | none => .error "Order not found"
  | some row =>
    if row.status ≠ "pending" then
      .error "Cannot validate order: expected status pending"
    else if row.amount ≤ 0 then
      .error "Order amount must be > 0"
    else
      .ok (orders.map fun r =>
        if r.id = orderId then { r with status := "validated", updatedAt := t } else r)

/-- `charge_payment`: transition `validated -> charged`. -/
def charge_payment (orders : List OrderRow) (orderId : String) (t : Nat) :
    Except String (List OrderRow) :=
  match orders.find? (·.id = orderId) with
  | none => .error "Order not found"
  | some row =>
    if row.status ≠ "validated" then
      .error "Cannot charge order: expected status validated"
    else
      .ok (orders.map fun r =>
        if r.id = orderId then { r with status := "charged", updatedAt := t } else r)

/-- `ship_order`: transition `charged -> shipped`. -/
def ship_order (orders : List OrderRow) (orderId : String) (t : Nat) :
    Except String (List OrderRow) :=
  match orders.find? (·.id = orderId) with
  | none => .error "Order not found"
  | some row =>
    if row.status ≠ "charged" then
      .error "Cannot ship order: expected status charged"
    else
      .ok (orders.map fun r =>
        if r.id = orderId then { r with status := "shipped", updatedAt := t } else r)

/-- `send_notification`: logs only, no transition. -/
def send_notification (orders : List OrderRow) (orderId : String) (t : Nat) :
    Except String (List OrderRow) :=
  .ok orders

/-- `ACTION_REGISTRY` of `actions.py`. -/
def ACTION_REGISTRY (action : String) :
    Option (List OrderRow → String → Nat → Except String (List OrderRow)) :=
  if action = "validate_order" then some validate_order
  else if action = "charge_payment" then some charge_payment
  else if action = "ship_order" then some ship_order
  else if action = "send_notification" then some send_notification
  else none

/-- `dispatch_action(conn, action, order_id)`: no-op when `order_id` is
`None` or the action is unregistered; otherwise calls the handler. -/
def dispatch_action (orders : List OrderRow) (action : String)
    (orderId : Option String) (t : Nat) : Except String (List OrderRow) :=
  match orderId with
  | none => .ok orders
  | some oid =>
    match ACTION_REGISTRY action with
    | none => .ok orders
    | some f => f orders oid t

/-! ## Step executor (`execute_step`, `executor.py`) -/

inductive Outcome where
  | completed
  | retry
  | failed
deriving DecidableEq, Repr

/-- Step 1 of `execute_step` ("claim an idempotency key") up to and
including its `conn.commit()`: reuse the row's key if present (crash
recovery) or generate a fresh one, then set `status=running`,
`started_at=_now()` and `idempotency_key` on the step row.  Returns the
committed state and the claimed key. -/
def claim_key_phase (s : ExecSt) (stepRow : StepRow) : ExecSt × Nat :=
  let (idemKey, s) :=
    match stepRow.idempotencyKey with
    | some k => (k, s)
    | none => freshUuid s
  let (t1, s) := nowTick s
  let db' := update_step_status s.db stepRow.id StepStatus.running
    (some t1) none none (some idemKey) none
  ({ s with db := db' }, idemKey)

/-- Steps 2-4 of `execute_step`: idempotency check, task invocation, and the
success / retry / failure commits.  `taskOutcome` stands for the result of
`execute_task(step_config)`; the returned `Bool` records whether the task
body was invoked. -/
def execute_step_rest (s : ExecSt) (stepRow : StepRow) (idemKey : Nat)
    (taskOutcome : Except TaskError String) : ExecSt × Outcome × Bool :=
  match check_step_result s.db idemKey with
  | some _ =>
    -- existing result: skip the task, mark completed, commit
    let (t2, s) := nowTick s
    let db' := update_step_status s.db stepRow.id StepStatus.completed
      none (some t2) none none none
    ({ s with db := db' }, Outcome.completed, false)
  | none =>
    match taskOutcome with
    | .error e =>
      if stepRow.retryCount < stepRow.maxRetries then
        -- retry: increment count, fresh idempotency key, back to pending
        let (newKey, s) := freshUuid s
        let db' := update_step_status s.db stepRow.id StepStatus.pending
          none none none (some newKey) (some (stepRow.retryCount + 1))
        ({ s with db := db' }, Outcome.retry, true)
      else
        -- exhausted: mark failed
        let (t3, s) := nowTick s
        let db' := update_step_status s.db stepRow.id StepStatus.failed
          none (some t3) (some e.msg) none none
        ({ s with db := db' }, Outcome.failed, true)
    | .ok result =>
      -- success: atomic commit, insert result + mark completed
      let s := insert_step_result s idemKey stepRow.id (some result)
      let (t4, s) := nowTick s
      let db' := update_step_status s.db stepRow.id StepStatus.completed
        none (some t4) none none none
      ({ s with db := db' }, Outcome.completed, true)

/-- `execute_step(conn, step_row, step_config)`.  The `step_config` argument
only feeds `execute_task`, whose outcome is the `taskOutcome` parameter. -/
def execute_step (s : ExecSt) (stepRow : StepRow)
    (taskOutcome : Except TaskError String) : ExecSt × Outcome × Bool :=
  let (s1, idemKey) := claim_key_phase s stepRow
  execute_step_rest s1 stepRow idemKey taskOutcome

/-! ## Run executor (`execute_run`, `executor.py`) -/

/-- The per-step `while True` retry loop of `execute_run`: re-fetch the
current step row, call `execute_step`, loop on `retry`, stop on `completed`
or `failed`.  `i` indexes task invocations into the oracle; the returned
`Nat`s are the next oracle index and the number of task invocations made.
The source loop is unbounded; it is bounded here by `fuel`, which the caller
sets above the retry budget (each `retry` outcome strictly increments the
step's `retry_count`, which is capped by `max_retries`, so the budget
`max_retries + 2` is never exhausted). -/
def run_step_loop (oracle : Nat → Except TaskError String) :
    Nat → Nat → ExecSt → StepRow → ExecSt × Nat × Bool × Nat
  | 0, i, s, _ => (s, i, true, 0)
  | fuel + 1, i, s, stepRow =>
    let current :=
      ((get_steps_for_run s.db stepRow.runId).find? (·.id = stepRow.id)).getD stepRow
    let (s, outcome, invoked) := execute_step s current (oracle i)
    let i' := if invoked then i + 1 else i
    let inv : Nat := if invoked then 1 else 0
    match outcome with
    | Outcome.completed => (s, i', false, inv)
    | Outcome.failed => (s, i', true, inv)
    | Outcome.retry =>
      let (s', i'', failed, invs) := run_step_loop oracle fuel i' s stepRow
      (s', i'', failed, inv + invs)

/-- The `for step_row in steps` loop of `execute_run`: skip steps whose
snapshot status is `completed` (recovery), otherwise run the retry loop；
stop at the first failed step. -/
def process_steps (oracle : Nat → Except TaskError String) :
    Nat → ExecSt → List StepRow → ExecSt × Nat × Bool
  | i, s, [] => (s, i, false)
  | i, s, stepRow :: rest =>
    if stepRow.status = StepStatus.completed then
      process_steps oracle i s rest
    else
      let (s, i, failed, _) :=
        run_step_loop oracle (stepRow.maxRetries + 2) i s stepRow
      if failed then (s, i, true)
      else process_steps oracle i s rest

/-- `execute_run(run_id)`.  Loads the run (a JOIN, so missing workflow also
yields `none`) and the workflow; marks the run `running` with
`started_at=_now()` unless it already is `running`; processes the steps
sequentially; finally commits `status ∈ {completed, failed}` with
`completed_at=_now()`.  There is no check for an already-terminal run. -/
def execute_run (oracle : Nat → Except TaskError String) (s : ExecSt)
    (runId : Nat) : ExecSt :=
  match get_run_detail s.db runId with
  | none => s
  | some run =>
    match get_workflow s.db run.workflowId with
    | none => s
    | some _wf =>
      let s :=
        if run.status ≠ RunStatus.running then
          let (t, s) := nowTick s
          { s with db := update_run_status s.db runId RunStatus.running (some t) none }
        else s
      let steps := get_steps_for_run s.db runId
      let (s, _, runFailed) := process_steps oracle 0 s steps
      let final := if runFailed then RunStatus.failed else RunStatus.completed
      let (t2, s) := nowTick s
      { s with db := update_run_status s.db runId final none (some t2) }

/-! ## Topological sort (`topological_sort`, `executor.py`)

Kahn's algorithm with a FIFO `deque`: seed with the zero-in-degree steps in
original array order; repeatedly pop the front, emit it, decrement its
dependents' in-degrees, and append the newly-ready dependents sorted by
original position.  In-degrees are integers (Python's counters can go
negative on malformed input).  The `while queue` loop is bounded here by
fuel `steps.length + 1`: each iteration pops one element, at most
`steps.length` distinct ids are ever enqueued on well-formed input, so the
fuel is never exhausted there.
-/

/-- A workflow step definition as `topological_sort` sees it: `.id` and
`.depends_on`. -/
structure WStep where
  id : String
  dependsOn : List String
deriving DecidableEq, Repr

/-- `original_index[sid]` (positions of the unique occurrence of each id in
the submitted list). -/
def origIdx (steps : List WStep) (sid : String) : Nat :=
  steps.findIdx (·.id = sid)

/-- `depends_on` of the step with a given id (`id_to_step` lookup). -/
def depOf (steps : List WStep) (sid : String) : List String :=
  match steps.find? (·.id = sid) with
  | some st => st.dependsOn
  | none => []

/-- `dependents[d]`: ids of the steps listing `d` in `depends_on`, in
submission order, one entry per occurrence (built by the appending loop of
the source). -/
def dependentsOf (steps : List WStep) (d : String) : List String :=
  steps.flatMap fun st => (st.dependsOn.filter (· = d)).map fun _ => st.id

/-- The inner `for dependent_id in dependents[step_id]` loop: decrement each
dependent's in-degree and collect, in order, those that reach exactly 0. -/
def decDependents (indeg : String → Int) : List String → (String → Int) × List String
  | [] => (indeg, [])
  | v :: rest =>
    let newVal := indeg v - 1
    let indeg' : String → Int := fun x => if x = v then newVal else indeg x
    let (indegF, newly) := decDependents indeg' rest
    if newVal = 0 then (indegF, v :: newly) else (indegF, newly)

/-- The `while queue` loop: pop the front id, emit it, process its
dependents, sort the newly-ready by original position, push them at the
back. -/
def kahnLoop (steps : List WStep) : Nat → (String → Int) → List String → List String
  | 0, _, _ => []
  | _ + 1, _, [] => []
  | fuel + 1, indeg, sid :: rest =>
    let (indeg', newly) := decDependents indeg (dependentsOf steps sid)
    let newlySorted :=
      List.insertionSort (fun a b => origIdx steps a ≤ origIdx steps b) newly
    sid :: kahnLoop steps fuel indeg' (rest ++ newlySorted)

/-- `topological_sort(steps)`: Kahn's algorithm; raises `ValueError` (here
`.error`) when the output is shorter than the input. -/
def topological_sort (steps : List WStep) : Except String (List WStep) :=
  let indeg0 : String → Int := fun sid => ((depOf steps sid).length : Int)
  let seeds := (steps.filter fun st => indeg0 st.id = 0).map (·.id)
  let resultIds := kahnLoop steps (steps.length + 1) indeg0 seeds
  let result := resultIds.filterMap fun sid => steps.find? (·.id = sid)
  if result.length ≠ steps.length then
    .error "Circular dependency detected among workflow steps"
  else
    .ok result

/-! ## Concrete fixtures used in witnesses and counterexamples -/

/-- A single pending order used to exercise the action handlers. -/
def demoOrder : OrderRow := ⟨"o1", "pending", 50, 0, 0⟩

/-- A step row with an already-set `started_at` and idempotency key (a
crash-recovered attempt). -/
def recoveredStep : StepRow :=
  ⟨100, 0, "s1", 0, StepStatus.running, some 42, 0, 0, some 5, none, none, 0⟩

/-- A state holding `recoveredStep` and a StepResult under its key. -/
def recoveredSt : ExecSt :=
  ⟨⟨[], [], [recoveredStep], [⟨42, 100, some "r", 1⟩], []⟩, 7, 500⟩

/-- A fresh pending step with `max_retries = 1`. -/
def freshStep : StepRow :=
  ⟨100, 0, "s1", 0, StepStatus.pending, none, 0, 1, none, none, none, 0⟩

/-- A state holding only `freshStep`. -/
def freshSt : ExecSt := ⟨⟨[], [], [freshStep], [], []⟩, 10, 500⟩

/-- A terminal (completed) run together with its workflow. -/
def terminalRunSt : ExecSt :=
  ⟨⟨[⟨0, "wf", [], 0⟩], [⟨0, 0, RunStatus.completed, some 5, some 6, 0⟩], [], [], []⟩, 10, 500⟩

/-- A running run (recovery entry state) together with its workflow. -/
def runningRunSt : ExecSt :=
  ⟨⟨[⟨0, "wf", [], 0⟩], [⟨0, 0, RunStatus.running, some 5, none, 0⟩], [], [], []⟩, 10, 500⟩

/-- An always-failing task-outcome oracle. -/
def alwaysFail : Nat → Except TaskError String := fun _ => .error ⟨"boom"⟩

/-- An always-succeeding task-outcome oracle. -/
def alwaysOk : Nat → Except TaskError String := fun _ => .ok "r"

/-- The step list of the stability counterexample: `A` depends on `B`; `B`
and `C` are independent. -/
def stabSteps : List WStep := [⟨"A", ["B"]⟩, ⟨"B", []⟩, ⟨"C", []⟩]

/-- The row of `freshSt` after the claim-key phase: `running`, stamped with
the fresh key 500 and `started_at = 10`. -/
def claimedFreshStep : StepRow :=
  ⟨100, 0, "s1", 0, StepStatus.running, some 500, 0, 1, some 10, none, none, 0⟩

/-- The row of `recoveredSt` after the crash-recovery skip path of
`execute_step`: `completed` at time 8, key 42 untouched. -/
def skippedRecoveredStep : StepRow :=
  ⟨100, 0, "s1", 0, StepStatus.completed, some 42, 0, 0, some 7, some 8, none, 0⟩

/-! ## Specification predicates -/

/-- Invariant "completion implies result": every step with
`status == completed` has a StepResult row under its current idempotency
key. -/
def CompletionImpliesResult (db : DB) : Prop :=
  ∀ st ∈ db.steps, st.status = StepStatus.completed →
    ∃ k, st.idempotencyKey = some k ∧ ∃ r ∈ db.stepResults, r.idempotencyKey = k

/-- The modelled-uuid freshness invariant: every idempotency key stored in
the database (on a step row or a StepResult) was produced by an earlier
`freshUuid`, hence is below the counter. -/
def KeysBound (s : ExecSt) : Prop :=
  (∀ r ∈ s.db.stepResults, r.idempotencyKey < s.nextUuid) ∧
  (∀ st ∈ s.db.steps, ∀ k, st.idempotencyKey = some k → k < s.nextUuid)

/-- Step ids are unique (`steps.id` is the primary key). -/
def StepIdsNodup (db : DB) : Prop :=
  (db.steps.map (·.id)).Nodup

/-! ## Topological-sort specification predicates -/

/-- Well-formed step lists, as guaranteed by the workflow validator
(`models.py`): distinct step ids, and every `depends_on` entry resolves. -/
def WFSteps (steps : List WStep) : Prop :=
  (steps.map (·.id)).Nodup ∧ ∀ st ∈ steps, ∀ d ∈ st.dependsOn, d ∈ steps.map (·.id)

/-- Dependency edge: `a` is a dependency of `b` (edge `a → b`). -/
def DepRel (steps : List WStep) (a b : String) : Prop :=
  ∃ st ∈ steps, st.id = b ∧ a ∈ st.dependsOn

/-- The dependency graph has a (directed) cycle. -/
def HasCycle (steps : List WStep) : Prop :=
  ∃ a, Relation.TransGen (DepRel steps) a a

/-- The moment a step with dependencies `deps` becomes ready relative to an
emission order `out`: the least prefix length of `out` containing all of
`deps`, or `none` if no prefix does. -/
def readyPoint (out : List String) (deps : List String) : Option Nat :=
  (List.range (out.length + 1)).find? (fun k => deps.all (· ∈ out.take k))

/-- The stability property exactly as the claim states it: whenever two
distinct steps are simultaneously ready (all dependencies of each already
emitted, neither emitted yet) after the same emitted prefix, the one with
the smaller original array position is emitted first. -/
def ClaimedStable (steps : List WStep) (out : List WStep) : Prop :=
  ∀ k, k ≤ out.length → ∀ u ∈ steps, ∀ v ∈ steps, u.id ≠ v.id →
    u.id ∉ (out.take k).map (·.id) → v.id ∉ (out.take k).map (·.id) →
    (∀ d ∈ u.dependsOn, d ∈ (out.take k).map (·.id)) →
    (∀ d ∈ v.dependsOn, d ∈ (out.take k).map (·.id)) →
    origIdx steps u.id < origIdx steps v.id →
    List.Sublist [u.id, v.id] (out.map (·.id))

/-- The stability the algorithm actually provides: two distinct steps that
become ready at the same moment (equal `readyPoint`) are emitted in
original-array order. -/
def BatchStable (steps : List WStep) (out : List WStep) : Prop :=
  ∀ u ∈ steps, ∀ v ∈ steps, u.id ≠ v.id →
    readyPoint (out.map (·.id)) u.dependsOn = readyPoint (out.map (·.id)) v.dependsOn →
    origIdx steps u.id < origIdx steps v.id →
    List.Sublist [u.id, v.id] (out.map (·.id))

/-- Loop invariant of Kahn's algorithm relating the emitted prefix `done`,
the in-degree table and the FIFO queue. -/
structure KahnInv (steps : List WStep) (done : List String) (indeg : String → Int)
    (queue : List String) : Prop where
  doneNodup : done.Nodup
  doneSub : ∀ x ∈ done, x ∈ steps.map (·.id)
  queueNodup : queue.Nodup
  queueDisj : ∀ x ∈ queue, x ∉ done
  indegEq : ∀ v ∈ steps.map (·.id),
    indeg v = ((depOf steps v).countP (fun d => !(done.contains d)) : Int)
  queueChar : ∀ v, v ∈ queue ↔
    (v ∈ steps.map (·.id) ∧ v ∉ done ∧ ∀ d ∈ depOf steps v, d ∈ done)
  topoDone : ∀ (i : Nat) (h : i < done.length),
    ∀ d ∈ depOf steps (done.get ⟨i, h⟩), d ∈ done.take i
  ordQueue : ∀ u ∈ queue, ∀ v ∈ queue, u ≠ v →
    readyPoint done (depOf steps u) = readyPoint done (depOf steps v) →
    origIdx steps u < origIdx steps v → List.Sublist [u, v] queue
  ordCross : ∀ u ∈ done, ∀ v ∈ queue,
    readyPoint done (depOf steps u) = readyPoint done (depOf steps v) →
    origIdx steps u < origIdx steps v
  ordDone : ∀ u ∈ done, ∀ v ∈ done, u ≠ v →
    readyPoint done (depOf steps u) = readyPoint done (depOf steps v) →
    origIdx steps u < origIdx steps v → List.Sublist [u, v] done

/-- What the rest of the loop produces, relative to the already-emitted
prefix `done`. -/
structure KahnOut (steps : List WStep) (done : List String) (out : List String) : Prop where
  fullNodup : (done ++ out).Nodup
  outSub : ∀ x ∈ out, x ∈ steps.map (·.id)
  topoFull : ∀ (i : Nat) (h : i < (done ++ out).length),
    ∀ d ∈ depOf steps ((done ++ out).get ⟨i, h⟩), d ∈ (done ++ out).take i
  blocked : ∀ v ∈ steps.map (·.id), v ∉ done ++ out →
    ¬ (∀ d ∈ depOf steps v, d ∈ done ++ out)
  stable : ∀ u v k, u ∈ steps.map (·.id) → v ∈ steps.map (·.id) → u ≠ v →
    readyPoint (done ++ out) (depOf steps u) = some k →
    readyPoint (done ++ out) (depOf steps v) = some k →
    origIdx steps u < origIdx steps v → List.Sublist [u, v] (done ++ out)

/-! ## Lemmas: components untouched by the store operations -/

theorem update_step_status_stepResults (db : DB) (i : Nat) (st : StepStatus)
    (a : Option Nat) (b : Option Nat) (c : Option String) (d : Option Nat)
    (e : Option Nat) :
    (update_step_status db i st a b c d e).stepResults = db.stepResults := rfl

theorem update_step_status_runs (db : DB) (i : Nat) (st : StepStatus)
    (a : Option Nat) (b : Option Nat) (c : Option String) (d : Option Nat)
    (e : Option Nat) :
    (update_step_status db i st a b c d e).runs = db.runs := rfl

theorem update_step_status_orders (db : DB) (i : Nat) (st : StepStatus)
    (a : Option Nat) (b : Option Nat) (c : Option String) (d : Option Nat)
    (e : Option Nat) :
    (update_step_status db i st a b c d e).orders = db.orders := rfl

theorem update_run_status_steps (db : DB) (i : Nat) (st : RunStatus)
    (a : Option Nat) (b : Option Nat) :
    (update_run_status db i st a b).steps = db.steps := rfl

theorem update_run_status_orders (db : DB) (i : Nat) (st : RunStatus)
    (a : Option Nat) (b : Option Nat) :
    (update_run_status db i st a b).orders = db.orders := rfl

theorem claim_key_phase_runs (s : ExecSt) (row : StepRow) :
    ((claim_key_phase s row).1).db.runs = s.db.runs := by
  unfold claim_key_phase
  cases row.idempotencyKey <;> rfl

theorem claim_key_phase_orders (s : ExecSt) (row : StepRow) :
    ((claim_key_phase s row).1).db.orders = s.db.orders := by
  unfold claim_key_phase
  cases row.idempotencyKey <;> rfl

theorem claim_key_phase_stepResults (s : ExecSt) (row : StepRow) :
    ((claim_key_phase s row).1).db.stepResults = s.db.stepResults := by
  unfold claim_key_phase
  cases row.idempotencyKey <;> rfl

theorem claim_key_phase_clock (s : ExecSt) (row : StepRow) :
    ((claim_key_phase s row).1).clock = s.clock + 1 := by
  unfold claim_key_phase
  cases row.idempotencyKey <;> rfl

theorem execute_step_rest_runs (s : ExecSt) (row : StepRow) (k : Nat)
    (o : Except TaskError String) :
    ((execute_step_rest s row k o).1).db.runs = s.db.runs := by
  unfold execute_step_rest
  cases check_step_result s.db k with
  | some r => rfl
  | none =>
    cases o with
    | ok r => rfl
    | error e =>
      by_cases hlt : row.retryCount < row.maxRetries <;> simp [hlt] <;> rfl

theorem execute_step_rest_orders (s : ExecSt) (row : StepRow) (k : Nat)
    (o : Except TaskError String) :
    ((execute_step_rest s row k o).1).db.orders = s.db.orders := by
  unfold execute_step_rest
  cases check_step_result s.db k with
  | some r => rfl
  | none =>
    cases o with
    | ok r => rfl
    | error e =>
      by_cases hlt : row.retryCount < row.maxRetries <;> simp [hlt] <;> rfl

theorem execute_step_eq (s : ExecSt) (row : StepRow) (o : Except TaskError String) :
    execute_step s row o =
      execute_step_rest (claim_key_phase s row).1 row (claim_key_phase s row).2 o := rfl

theorem execute_step_runs (s : ExecSt) (row : StepRow) (o : Except TaskError String) :
    ((execute_step s row o).1).db.runs = s.db.runs := by
  rw [execute_step_eq, execute_step_rest_runs, claim_key_phase_runs]

theorem execute_step_orders (s : ExecSt) (row : StepRow) (o : Except TaskError String) :
    ((execute_step s row o).1).db.orders = s.db.orders := by
  rw [execute_step_eq, execute_step_rest_orders, claim_key_phase_orders]

theorem run_step_loop_runs (oracle : Nat → Except TaskError String) :
    ∀ (fuel i : Nat) (s : ExecSt) (row : StepRow),
      ((run_step_loop oracle fuel i s row).1).db.runs = s.db.runs := by
  intro fuel
  induction fuel with
  | zero => intro i s row; rfl
  | succ n ih =>
    intro i s row
    unfold run_step_loop
    dsimp only
    split <;> simp [ih, execute_step_runs]

theorem run_step_loop_orders (oracle : Nat → Except TaskError String) :
    ∀ (fuel i : Nat) (s : ExecSt) (row : StepRow),
      ((run_step_loop oracle fuel i s row).1).db.orders = s.db.orders := by
  intro fuel
  induction fuel with
  | zero => intro i s row; rfl
  | succ n ih =>
    intro i s row
    unfold run_step_loop
    dsimp only
    split <;> simp [ih, execute_step_orders]

theorem process_steps_runs (oracle : Nat → Except TaskError String) :
    ∀ (rows : List StepRow) (i : Nat) (s : ExecSt),
      ((process_steps oracle i s rows).1).db.runs = s.db.runs := by
  intro rows
  induction rows with
  | nil => intro i s; rfl
  | cons row rest ih =>
    intro i s
    unfold process_steps
    by_cases hc : row.status = StepStatus.completed
    · simp [hc, ih]
    · simp only [hc, if_false]
      split
      · simpa using run_step_loop_runs oracle (row.maxRetries + 2) i s row
      · rw [ih, run_step_loop_runs]

theorem process_steps_orders (oracle : Nat → Except TaskError String) :
    ∀ (rows : List StepRow) (i : Nat) (s : ExecSt),
      ((process_steps oracle i s rows).1).db.orders = s.db.orders := by
  intro rows
  induction rows with
  | nil => intro i s; rfl
  | cons row rest ih =>
    intro i s
    unfold process_steps
    by_cases hc : row.status = StepStatus.completed
    · simp [hc, ih]
    · simp only [hc, if_false]
      split
      · simpa using run_step_loop_orders oracle (row.maxRetries + 2) i s row
      · rw [ih, run_step_loop_orders]

theorem execute_step_rest_clock (s : ExecSt) (row : StepRow) (k : Nat)
    (o : Except TaskError String) :
    s.clock ≤ ((execute_step_rest s row k o).1).clock := by
  unfold execute_step_rest
  cases check_step_result s.db k with
  | some r => simp [nowTick, update_step_status]
  | none =>
    cases o with
    | ok r => exact Nat.le_add_right s.clock 2
    | error e =>
      by_cases hlt : row.retryCount < row.maxRetries <;>
        simp [hlt, nowTick, freshUuid, update_step_status]

theorem execute_step_clock (s : ExecSt) (row : StepRow) (o : Except TaskError String) :
    s.clock ≤ ((execute_step s row o).1).clock := by
  rw [execute_step_eq]
  have h1 : s.clock ≤ ((claim_key_phase s row).1).clock := by
    rw [claim_key_phase_clock]
    exact Nat.le_succ _
  exact le_trans h1 (execute_step_rest_clock _ _ _ _)

theorem run_step_loop_clock (oracle : Nat → Except TaskError String) :
    ∀ (fuel i : Nat) (s : ExecSt) (row : StepRow),
      s.clock ≤ ((run_step_loop oracle fuel i s row).1).clock := by
  intro fuel
  induction fuel with
  | zero => intro i s row; exact le_refl _
  | succ n ih =>
    intro i s row
    unfold run_step_loop
    dsimp only
    split
    · exact execute_step_clock _ _ _
    · exact execute_step_clock _ _ _
    · exact le_trans (execute_step_clock _ _ _) (by simpa using ih _ _ row)

theorem process_steps_clock (oracle : Nat → Except TaskError String) :
    ∀ (rows : List StepRow) (i : Nat) (s : ExecSt),
      s.clock ≤ ((process_steps oracle i s rows).1).clock := by
  intro rows
  induction rows with
  | nil => intro i s; exact le_refl _
  | cons row rest ih =>
    intro i s
    unfold process_steps
    by_cases hc : row.status = StepStatus.completed
    · simpa [hc] using ih i s
    · simp only [hc, if_false]
      split
      · simpa using run_step_loop_clock oracle (row.maxRetries + 2) i s row
      · exact le_trans (run_step_loop_clock oracle (row.maxRetries + 2) i s row)
          (by simpa using ih _ _)

/-! ## Claim theorems -/

/-- C9: `create_run` as implemented accepts only a workflow id.  It inserts a
run in `pending` status with NULL timestamps, but the inserted row records no
`order_id`: the `runs` schema has no such column, `RunRow` mirrors it, and
the complete inserted row is exhibited below.  (The claimed optional
`order_id` argument does not exist — `main.py` passes one, which is a
`TypeError` against this signature.) -/
theorem create_run_inserts_pending_without_order_id (s : ExecSt) (workflowId : Nat) :
    (create_run s workflowId).1.db.runs =
      s.db.runs ++
        [⟨s.nextUuid, workflowId, RunStatus.pending, none, none, s.clock⟩] ∧
    (create_run s workflowId).2 = s.nextUuid :=
  ⟨rfl, rfl⟩

/-- C2: `execute_step` never invokes an action handler: the `orders` table is
unchanged on every path through it — in particular on the success commit —
while `dispatch_action` (which `executor.py` never calls) would transition a
linked pending order when handed the registered action `validate_order`. -/
theorem execute_step_success_commit_invokes_no_action_handler :
    (∀ (s : ExecSt) (stepRow : StepRow) (taskOutcome : Except TaskError String),
        ((execute_step s stepRow taskOutcome).1).db.orders = s.db.orders) ∧
    dispatch_action [demoOrder] "validate_order" (some "o1") 7 =
      .ok [⟨"o1", "validated", 50, 0, 7⟩] := by
  constructor
  · intro s stepRow taskOutcome
    exact execute_step_orders s stepRow taskOutcome
  · rfl

/-- C10: each domain action handler (`validate_order`, `charge_payment`,
`ship_order`) either performs exactly the one status transition of the
addressed order (also updating `updated_at`) or rejects: it errors exactly
when the order is missing, is not in the required predecessor state, or (for
`validate_order`) has `amount ≤ 0`; every check precedes the single UPDATE,
so a rejecting call returns before any write. -/
theorem action_handlers_transition_once_or_reject
    (orders : List OrderRow) (oid : String) (t : Nat) :
    ((∃ e, validate_order orders oid t = .error e) ↔
       orders.find? (·.id = oid) = none ∨
       ∃ r, orders.find? (·.id = oid) = some r ∧ (r.status ≠ "pending" ∨ r.amount ≤ 0)) ∧
    (∀ r, orders.find? (·.id = oid) = some r → r.status = "pending" → 0 < r.amount →
       validate_order orders oid t = .ok (orders.map fun x =>
         if x.id = oid then { x with status := "validated", updatedAt := t } else x)) ∧
    ((∃ e, charge_payment orders oid t = .error e) ↔
       orders.find? (·.id = oid) = none ∨
       ∃ r, orders.find? (·.id = oid) = some r ∧ r.status ≠ "validated") ∧
    (∀ r, orders.find? (·.id = oid) = some r → r.status = "validated" →
       charge_payment orders oid t = .ok (orders.map fun x =>
         if x.id = oid then { x with status := "charged", updatedAt := t } else x)) ∧
    ((∃ e, ship_order orders oid t = .error e) ↔
       orders.find? (·.id = oid) = none ∨
       ∃ r, orders.find? (·.id = oid) = some r ∧ r.status ≠ "charged") ∧
    (∀ r, orders.find? (·.id = oid) = some r → r.status = "charged" →
       ship_order orders oid t = .ok (orders.map fun x =>
         if x.id = oid then { x with status := "shipped", updatedAt := t } else x)) := by
  refine ⟨?_, ?_, ?_, ?_, ?_, ?_⟩
  · unfold validate_order
    cases hf : orders.find? (·.id = oid) with
    | none => simp
    | some r =>
      by_cases h1 : r.status = "pending"
      · by_cases h2 : r.amount ≤ 0
        · simp [h1, h2]
        · simp [h1, h2]
      · simp [h1]
  · intro r hf hs ha
    unfold validate_order
    rw [hf]
    simp [hs, not_le.mpr ha]
  · unfold charge_payment
    cases hf : orders.find? (·.id = oid) with
    | none => simp
    | some r =>
      by_cases h1 : r.status = "validated" <;> simp [h1]
  · intro r hf hs
    unfold charge_payment
    rw [hf]
    simp [hs]
  · unfold ship_order
    cases hf : orders.find? (·.id = oid) with
    | none => simp
    | some r =>
      by_cases h1 : r.status = "charged" <;> simp [h1]
  · intro r hf hs
    unfold ship_order
    rw [hf]
    simp [hs]

/-- C10 witness: on a singleton table holding the pending order `o1` with
amount 50 at time 3, `validate_order` succeeds and transitions exactly that
row to `validated` with `updated_at = 3`. -/
theorem action_handlers_witness :
    validate_order [demoOrder] "o1" 3 =
      .ok ([demoOrder].map fun x =>
        if x.id = "o1" then { x with status := "validated", updatedAt := 3 } else x) :=
  (action_handlers_transition_once_or_reject [demoOrder] "o1" 3).2.1 demoOrder
    (by rfl) (by rfl) (by norm_num [demoOrder])

/-- Characterization of the rows touched by the claim-key phase: every row
with the executed step's id is set to `running`, `started_at = now`, and the
claimed key. -/
theorem claim_key_phase_row_eq (s : ExecSt) (stepRow : StepRow) :
    ∀ st' ∈ (claim_key_phase s stepRow).1.db.steps, st'.id = stepRow.id →
      st'.status = StepStatus.running ∧ st'.startedAt = some s.clock ∧
      st'.idempotencyKey = some (claim_key_phase s stepRow).2 := by
  intro st' hmem hid
  unfold claim_key_phase at hmem ⊢
  cases hk : stepRow.idempotencyKey with
  | some k =>
    rw [hk] at hmem
    simp only [update_step_status, nowTick, List.mem_map] at hmem
    obtain ⟨st, hst, rfl⟩ := hmem
    by_cases he : st.id = stepRow.id
    · simp [he, hk]
    · rw [if_neg he] at hid
      exact absurd hid he
  | none =>
    rw [hk] at hmem
    simp only [update_step_status, nowTick, freshUuid, List.mem_map] at hmem
    obtain ⟨st, hst, rfl⟩ := hmem
    by_cases he : st.id = stepRow.id
    · simp [he, hk, freshUuid]
    · rw [if_neg he] at hid
      exact absurd hid he

/-- Membership in the claim-key phase steps comes from membership before. -/
theorem claim_key_phase_mem_of (s : ExecSt) (stepRow : StepRow) :
    ∀ st' ∈ (claim_key_phase s stepRow).1.db.steps,
      ∃ st ∈ s.db.steps, st'.id = st.id := by
  intro st' hmem
  unfold claim_key_phase at hmem
  cases hk : stepRow.idempotencyKey with
  | some k =>
    rw [hk] at hmem
    simp only [update_step_status, nowTick, List.mem_map] at hmem
    obtain ⟨st, hst, rfl⟩ := hmem
    refine ⟨st, hst, ?_⟩
    by_cases he : st.id = stepRow.id <;> simp [he]
  | none =>
    rw [hk] at hmem
    simp only [update_step_status, nowTick, freshUuid, List.mem_map] at hmem
    obtain ⟨st, hst, rfl⟩ := hmem
    refine ⟨st, hst, ?_⟩
    by_cases he : st.id = stepRow.id <;> simp [he]

/-- C8 counterexample: a crash-recovered step row entering `execute_step`
with `started_at = 5` has its `started_at` overwritten to the current time 7
by the claim-key phase — the source passes `started_at=_now()`
unconditionally, with no "only if unset" guard. -/
theorem claim_key_phase_overwrites_started_at_cex :
    recoveredStep.startedAt = some 5 ∧
    ((claim_key_phase recoveredSt recoveredStep).1.db.steps.map (·.startedAt)) =
      [some 7] :=
  ⟨rfl, rfl⟩

/-- C8 (amended): the claim-key phase sets the step to `status=running`,
reuses the row's idempotency key when present (else claims the fresh token),
and unconditionally sets `started_at` to the current time, overwriting any
previously set value. -/
theorem claim_key_phase_sets_running_key_and_started_at
    (s : ExecSt) (stepRow : StepRow) :
    (claim_key_phase s stepRow).2 =
      (match stepRow.idempotencyKey with | some k => k | none => s.nextUuid) ∧
    ∀ st' ∈ (claim_key_phase s stepRow).1.db.steps, st'.id = stepRow.id →
      st'.status = StepStatus.running ∧ st'.startedAt = some s.clock ∧
      st'.idempotencyKey = some (claim_key_phase s stepRow).2 := by
  constructor
  · unfold claim_key_phase
    cases stepRow.idempotencyKey <;> rfl
  · exact claim_key_phase_row_eq s stepRow

/-- C8 witness: for the fresh pending step (no key, no `started_at`) in
`freshSt`, the claim-key phase claims the fresh token 500 and the updated
row `claimedFreshStep` is running with `started_at = 10` and key 500. -/
theorem claim_key_phase_witness :
    (claim_key_phase freshSt freshStep).2 = 500 ∧
    claimedFreshStep ∈ (claim_key_phase freshSt freshStep).1.db.steps ∧
    claimedFreshStep.status = StepStatus.running ∧
    claimedFreshStep.startedAt = some 10 ∧
    claimedFreshStep.idempotencyKey = some (claim_key_phase freshSt freshStep).2 := by
  have h := claim_key_phase_sets_running_key_and_started_at freshSt freshStep
  have hmem : claimedFreshStep ∈ (claim_key_phase freshSt freshStep).1.db.steps := by decide
  have h2 := h.2 claimedFreshStep hmem (by decide)
  exact ⟨h.1, hmem, h2.1, h2.2.1, h2.2.2⟩

/-- C1: for a step row whose current idempotency key already has a
StepResult, `execute_step` returns `completed` without invoking the task
body (`invoked = false`), updates the step to `status=completed` with
`completed_at` set (the tick after the claim-phase commit), and leaves the
step's idempotency key equal to its value at entry. -/
theorem execute_step_skips_task_on_existing_result
    (s : ExecSt) (stepRow : StepRow) (k : Nat) (taskOutcome : Except TaskError String)
    (hk : stepRow.idempotencyKey = some k)
    (hres : (check_step_result s.db k).isSome = true) :
    (execute_step s stepRow taskOutcome).2.1 = Outcome.completed ∧
    (execute_step s stepRow taskOutcome).2.2 = false ∧
    ∀ st' ∈ ((execute_step s stepRow taskOutcome).1).db.steps, st'.id = stepRow.id →
      st'.status = StepStatus.completed ∧ st'.completedAt = some (s.clock + 1) ∧
      st'.idempotencyKey = some k := by
  have hkey : (claim_key_phase s stepRow).2 = k := by
    unfold claim_key_phase
    rw [hk]
  obtain ⟨r, hr⟩ := Option.isSome_iff_exists.mp hres
  have hres1 : check_step_result ((claim_key_phase s stepRow).1).db k = some r := by
    unfold check_step_result at hr ⊢
    rw [claim_key_phase_stepResults]
    exact hr
  have hclock := claim_key_phase_clock s stepRow
  rw [execute_step_eq, hkey]
  unfold execute_step_rest
  rw [hres1]
  dsimp only [nowTick]
  refine ⟨rfl, rfl, ?_⟩
  intro st' hmem hid
  simp only [update_step_status, List.mem_map] at hmem
  obtain ⟨st1, hst1, rfl⟩ := hmem
  by_cases he : st1.id = stepRow.id
  · have h1 := claim_key_phase_row_eq s stepRow st1 hst1 he
    have hkk : st1.idempotencyKey = some k := by
      rw [h1.2.2, hkey]
    refine ⟨by simp [he], ?_, ?_⟩
    · simp only [he, if_true]
      rw [← hclock]
    · simp [he, hkk]
  · rw [if_neg he] at hid
    exact absurd hid he

/-- C1 witness: executing the pre-seeded running step of `recoveredSt`
(whose key 42 already has a StepResult) completes without invoking the task
and produces the row `skippedRecoveredStep` with the key unchanged. -/
theorem execute_step_skip_witness :
    (execute_step recoveredSt recoveredStep (.ok "ignored")).2.1 = Outcome.completed ∧
    (execute_step recoveredSt recoveredStep (.ok "ignored")).2.2 = false ∧
    skippedRecoveredStep ∈
      ((execute_step recoveredSt recoveredStep (.ok "ignored")).1).db.steps ∧
    skippedRecoveredStep.status = StepStatus.completed ∧
    skippedRecoveredStep.completedAt = some 8 ∧
    skippedRecoveredStep.idempotencyKey = some 42 := by
  have h := execute_step_skips_task_on_existing_result recoveredSt recoveredStep 42
    (.ok "ignored") (by rfl) (by rfl)
  have hmem : skippedRecoveredStep ∈
      ((execute_step recoveredSt recoveredStep (.ok "ignored")).1).db.steps := by decide
  have h2 := h.2.2 skippedRecoveredStep hmem (by decide)
  exact ⟨h.1, h.2.1, hmem, h2.1, h2.2.1, h2.2.2⟩

theorem claim_key_phase_key_eq (s : ExecSt) (stepRow : StepRow) :
    (claim_key_phase s stepRow).2 =
      (match stepRow.idempotencyKey with | some k => k | none => s.nextUuid) := by
  unfold claim_key_phase
  cases stepRow.idempotencyKey <;> rfl

theorem claim_key_phase_steps_eq (s : ExecSt) (stepRow : StepRow) :
    ((claim_key_phase s stepRow).1).db.steps =
      s.db.steps.map (fun st =>
        if st.id = stepRow.id then
          { st with
            status := StepStatus.running
            startedAt := some s.clock
            idempotencyKey :=
              some (match stepRow.idempotencyKey with | some k => k | none => s.nextUuid) }
        else st) := by
  unfold claim_key_phase
  cases stepRow.idempotencyKey <;> rfl

theorem completion_inv_claim_key_phase (s : ExecSt) (stepRow : StepRow)
    (hinv : CompletionImpliesResult s.db) :
    CompletionImpliesResult ((claim_key_phase s stepRow).1).db := by
  intro st' hmem hcomp
  rw [claim_key_phase_steps_eq] at hmem
  simp only [List.mem_map] at hmem
  obtain ⟨st, hst, rfl⟩ := hmem
  rw [show ((claim_key_phase s stepRow).1).db.stepResults = s.db.stepResults from
    claim_key_phase_stepResults s stepRow]
  by_cases he : st.id = stepRow.id
  · rw [if_pos he] at hcomp
    exact absurd hcomp (by simp)
  · rw [if_neg he] at hcomp ⊢
    exact hinv st hst hcomp

theorem completion_inv_execute_step_rest (s1 : ExecSt) (stepRow : StepRow) (k1 : Nat)
    (taskOutcome : Except TaskError String)
    (hinv : CompletionImpliesResult s1.db)
    (hkey : ∀ st ∈ s1.db.steps, st.id = stepRow.id → st.idempotencyKey = some k1) :
    CompletionImpliesResult ((execute_step_rest s1 stepRow k1 taskOutcome).1).db := by
  unfold execute_step_rest
  cases hc : check_step_result s1.db k1 with
  | some r =>
    have hrmem : r ∈ s1.db.stepResults := List.mem_of_find?_eq_some hc
    have hrkey : r.idempotencyKey = k1 := by simpa using List.find?_some hc
    dsimp only [nowTick]
    intro st' hmem hcomp
    simp only [update_step_status, List.mem_map] at hmem
    obtain ⟨st, hst, rfl⟩ := hmem
    by_cases he : st.id = stepRow.id
    · refine ⟨k1, ?_, r, hrmem, hrkey⟩
      simp [he, hkey st hst he]
    · rw [if_neg he] at hcomp ⊢
      exact hinv st hst hcomp
  | none =>
    cases taskOutcome with
    | error e =>
      by_cases hlt : stepRow.retryCount < stepRow.maxRetries
      · simp only [hlt, if_true]
        dsimp only [freshUuid]
        intro st' hmem hcomp
        simp only [update_step_status, List.mem_map] at hmem
        obtain ⟨st, hst, rfl⟩ := hmem
        by_cases he : st.id = stepRow.id
        · rw [if_pos he] at hcomp
          exact absurd hcomp (by simp)
        · rw [if_neg he] at hcomp ⊢
          exact hinv st hst hcomp
      · simp only [hlt, if_false]
        dsimp only [nowTick]
        intro st' hmem hcomp
        simp only [update_step_status, List.mem_map] at hmem
        obtain ⟨st, hst, rfl⟩ := hmem
        by_cases he : st.id = stepRow.id
        · rw [if_pos he] at hcomp
          exact absurd hcomp (by simp)
        · rw [if_neg he] at hcomp ⊢
          exact hinv st hst hcomp
    | ok result =>
      dsimp only [insert_step_result, nowTick]
      intro st' hmem hcomp
      simp only [update_step_status, List.mem_map] at hmem
      obtain ⟨st, hst, rfl⟩ := hmem
      by_cases he : st.id = stepRow.id
      · refine ⟨k1, ?_, ⟨k1, stepRow.id, some result, s1.clock⟩, ?_, rfl⟩
        · rw [if_pos he]
          exact hkey st hst he
        · rw [update_step_status_stepResults]
          exact List.mem_append_right _ (by simp)
      · rw [if_neg he] at hcomp ⊢
        obtain ⟨k, hk, rr, hrr, hrrk⟩ := hinv st hst hcomp
        refine ⟨k, hk, rr, ?_, hrrk⟩
        rw [update_step_status_stepResults]
        exact List.mem_append_left _ hrr

/-- C4: the invariant "every completed step has a StepResult under its
current idempotency key" is preserved by both commits of `execute_step`: the
claim-key commit and the terminal commit of whichever path runs (skip,
retry, failure, or the atomic success commit). -/
theorem execute_step_preserves_completion_implies_result
    (s : ExecSt) (stepRow : StepRow) (taskOutcome : Except TaskError String)
    (hinv : CompletionImpliesResult s.db) :
    CompletionImpliesResult ((claim_key_phase s stepRow).1).db ∧
    CompletionImpliesResult ((execute_step s stepRow taskOutcome).1).db := by
  have h1 := completion_inv_claim_key_phase s stepRow hinv
  refine ⟨h1, ?_⟩
  rw [execute_step_eq]
  refine completion_inv_execute_step_rest _ _ _ _ h1 ?_
  intro st hst he
  exact (claim_key_phase_row_eq s stepRow st hst he).2.2

/-- C4 witness: starting from `freshSt` (one pending step, no results, so
the invariant holds vacuously), both commits of a successful `execute_step`
preserve the completion-implies-result invariant. -/
theorem completion_inv_witness :
    CompletionImpliesResult ((claim_key_phase freshSt freshStep).1).db ∧
    CompletionImpliesResult ((execute_step freshSt freshStep (.ok "r")).1).db :=
  execute_step_preserves_completion_implies_result freshSt freshStep (.ok "r")
    (by
      intro st hmem hcomp
      rw [show freshSt.db.steps = [freshStep] from rfl, List.mem_singleton] at hmem
      subst hmem
      exact absurd hcomp (by decide))

theorem update_run_status_startedAt_map (db : DB) (rid : Nat) (st : RunStatus)
    (c : Option Nat) :
    ((update_run_status db rid st none c).runs).map (·.startedAt) =
      db.runs.map (·.startedAt) := by
  unfold update_run_status
  rw [List.map_map]
  apply List.map_congr_left
  intro r hr
  by_cases he : r.id = rid <;> simp [he]

theorem get_run_detail_some {db : DB} {rid : Nat} {run : RunRow}
    (h : get_run_detail db rid = some run) :
    db.runs.find? (·.id = rid) = some run ∧
    ∃ wf, get_workflow db run.workflowId = some wf := by
  unfold get_run_detail at h
  cases hf : db.runs.find? (·.id = rid) with
  | none => rw [hf] at h; cases h
  | some r =>
    rw [hf] at h
    dsimp only at h
    by_cases hiw : (db.workflows.find? (·.id = r.workflowId)).isSome
    · rw [if_pos hiw] at h
      cases h
      exact ⟨rfl, Option.isSome_iff_exists.mp hiw⟩
    · rw [if_neg hiw] at h
      cases h

/-- C7: when `execute_run` is entered with the run already `running` (the
recovery case), no write to `started_at` of any run row happens: the whole
`started_at` column of `runs` is unchanged at termination. -/
theorem execute_run_preserves_started_at_on_recovery
    (oracle : Nat → Except TaskError String) (s : ExecSt) (runId : Nat) (run : RunRow)
    (hrun : get_run_detail s.db runId = some run)
    (hst : run.status = RunStatus.running) :
    ((execute_run oracle s runId).db.runs).map (·.startedAt) =
      s.db.runs.map (·.startedAt) := by
  obtain ⟨hfind, wf, hwf⟩ := get_run_detail_some hrun
  unfold execute_run
  rw [hrun]
  dsimp only
  rw [hwf]
  dsimp only
  rw [if_neg (by simp [hst])]
  dsimp only [nowTick]
  rw [update_run_status_startedAt_map, process_steps_runs]

/-- C7 witness: recovering the running run of `runningRunSt`
(`started_at = 5`) leaves the `started_at` column unchanged. -/
theorem execute_run_started_at_witness :
    ((execute_run alwaysOk runningRunSt 0).db.runs).map (·.startedAt) =
      runningRunSt.db.runs.map (·.startedAt) :=
  execute_run_preserves_started_at_on_recovery alwaysOk runningRunSt 0
    ⟨0, 0, RunStatus.running, some 5, none, 0⟩ (by decide) rfl

/-- C5 counterexample: invoking `execute_run` on the completed run of
`terminalRunSt` (`started_at = 5`, `completed_at = 6`) mutates its row:
`started_at` is overwritten to 10 and `completed_at` to 11, because
`execute_run` has no terminal-state check before re-marking the run
`running`. -/
theorem execute_run_terminal_mutates_cex :
    terminalRunSt.db.runs.map (·.startedAt) = [some 5] ∧
    ((execute_run alwaysOk terminalRunSt 0).db.runs).map (·.startedAt) = [some 10] ∧
    terminalRunSt.db.runs.map (·.completedAt) = [some 6] ∧
    ((execute_run alwaysOk terminalRunSt 0).db.runs).map (·.completedAt) = [some 11] := by
  refine ⟨rfl, ?_, rfl, ?_⟩ <;> decide

/-- C5 (amended): `execute_run` returns without touching the database only
when the run (or, through the JOIN, its workflow) is missing.  Invoked on a
run already in a terminal state it re-enters it: the run is re-marked
`running` with `started_at` overwritten to the current time, and it is then
re-finalized to a terminal status with a freshly written `completed_at`. -/
theorem execute_run_terminal_reenters
    (oracle : Nat → Except TaskError String) (s : ExecSt) (runId : Nat) :
    (get_run_detail s.db runId = none → execute_run oracle s runId = s) ∧
    (∀ run, get_run_detail s.db runId = some run →
      (run.status = RunStatus.completed ∨ run.status = RunStatus.failed) →
      ∀ r' ∈ (execute_run oracle s runId).db.runs, r'.id = runId →
        r'.startedAt = some s.clock ∧
        (r'.status = RunStatus.completed ∨ r'.status = RunStatus.failed) ∧
        ∃ t, s.clock < t ∧ r'.completedAt = some t) := by
  constructor
  · intro h
    unfold execute_run
    rw [h]
  · intro run hrun hterm
    obtain ⟨hfind, wf, hwf⟩ := get_run_detail_some hrun
    have hne : run.status ≠ RunStatus.running := by
      rcases hterm with h | h <;> rw [h] <;> decide
    unfold execute_run
    rw [hrun]
    dsimp only
    rw [hwf]
    dsimp only
    rw [if_pos hne]
    dsimp only [nowTick]
    intro r' hmem hid
    simp only [update_run_status, List.mem_map] at hmem
    obtain ⟨r2, hr2, rfl⟩ := hmem
    by_cases he2 : r2.id = runId
    case neg =>
      rw [if_neg he2] at hid
      exact absurd hid he2
    case pos =>
      rw [if_pos he2]
      have hr2' : r2 ∈
          (update_run_status s.db runId RunStatus.running (some s.clock) none).runs := by
        have hpr := process_steps_runs oracle
          (get_steps_for_run
            (update_run_status s.db runId RunStatus.running (some s.clock) none) runId) 0
          { s with
            db := update_run_status s.db runId RunStatus.running (some s.clock) none
            clock := s.clock + 1 }
        rw [← hpr]
        exact hr2
      simp only [update_run_status, List.mem_map] at hr2'
      obtain ⟨r0, hr0, hr2eq⟩ := hr2'
      have he0 : r0.id = runId := by
        by_cases h0 : r0.id = runId
        · exact h0
        · rw [if_neg h0] at hr2eq
          rw [← hr2eq] at he2
          exact absurd he2 h0
      rw [if_pos he0] at hr2eq
      have hstarted : r2.startedAt = some s.clock := by
        rw [← hr2eq]
      have hclk := process_steps_clock oracle
        (get_steps_for_run
          (update_run_status s.db runId RunStatus.running (some s.clock) none) runId) 0
        { db := update_run_status s.db runId RunStatus.running (some s.clock) none
          clock := s.clock + 1
          nextUuid := s.nextUuid }
      dsimp only at hclk
      refine ⟨hstarted, ?_, ?_⟩
      · by_cases hf :
          (process_steps oracle 0
            { s with
              db := update_run_status s.db runId RunStatus.running (some s.clock) none
              clock := s.clock + 1 }
            (get_steps_for_run
              (update_run_status s.db runId RunStatus.running (some s.clock) none)
              runId)).2.2 = true <;> simp [hf]
      · refine ⟨_, ?_, rfl⟩
        exact lt_of_lt_of_le (Nat.lt_succ_self _) hclk

/-- C5 witness: applying the re-entry theorem to the concrete terminal run of
`terminalRunSt` yields the mutated run row `(started_at 10, completed_at 11)`
produced by `execute_run`. -/
theorem execute_run_terminal_witness :
    (⟨0, 0, RunStatus.completed, some 10, some 11, 0⟩ : RunRow).startedAt =
      some terminalRunSt.clock ∧
    ∃ t, terminalRunSt.clock < t ∧
      (⟨0, 0, RunStatus.completed, some 10, some 11, 0⟩ : RunRow).completedAt = some t := by
  have h := (execute_run_terminal_reenters alwaysOk terminalRunSt 0).2
    ⟨0, 0, RunStatus.completed, some 5, some 6, 0⟩ (by decide) (Or.inl rfl)
    ⟨0, 0, RunStatus.completed, some 10, some 11, 0⟩ (by decide) rfl
  exact ⟨h.1, h.2.2⟩

theorem update_step_status_id_map (db : DB) (i : Nat) (st : StepStatus)
    (a : Option Nat) (b : Option Nat) (c : Option String) (d : Option Nat)
    (e : Option Nat) :
    ((update_step_status db i st a b c d e).steps).map (·.id) =
      db.steps.map (·.id) := by
  unfold update_step_status
  rw [List.map_map]
  apply List.map_congr_left
  intro x hx
  by_cases he : x.id = i <;> simp [he]

theorem claim_key_phase_id_map (s : ExecSt) (stepRow : StepRow) :
    (((claim_key_phase s stepRow).1).db.steps).map (·.id) =
      s.db.steps.map (·.id) := by
  unfold claim_key_phase
  cases stepRow.idempotencyKey <;> exact update_step_status_id_map _ _ _ _ _ _ _ _

theorem execute_step_id_map (s : ExecSt) (stepRow : StepRow)
    (o : Except TaskError String) :
    (((execute_step s stepRow o).1).db.steps).map (·.id) =
      s.db.steps.map (·.id) := by
  rw [execute_step_eq]
  have h2 : (((execute_step_rest (claim_key_phase s stepRow).1 stepRow
      (claim_key_phase s stepRow).2 o).1).db.steps).map (·.id) =
      (((claim_key_phase s stepRow).1).db.steps).map (·.id) := by
    generalize (claim_key_phase s stepRow).1 = s1
    generalize (claim_key_phase s stepRow).2 = k1
    unfold execute_step_rest
    cases check_step_result s1.db k1 with
    | some r => exact update_step_status_id_map _ _ _ _ _ _ _ _
    | none =>
      cases o with
      | ok r => exact update_step_status_id_map _ _ _ _ _ _ _ _
      | error e =>
        by_cases hlt : stepRow.retryCount < stepRow.maxRetries <;>
          simp only [hlt, if_true, if_false] <;>
          exact update_step_status_id_map _ _ _ _ _ _ _ _
  rw [h2, claim_key_phase_id_map]

theorem step_ids_nodup_unique {db : DB} (hnd : StepIdsNodup db) {a b : StepRow}
    (ha : a ∈ db.steps) (hb : b ∈ db.steps) (hid : a.id = b.id) : a = b :=
  List.inj_on_of_nodup_map hnd ha hb hid

theorem fetch_current {db : DB} {row : StepRow} (hnd : StepIdsNodup db)
    (hmem : row ∈ db.steps) :
    (get_steps_for_run db row.runId).find? (·.id = row.id) = some row := by
  have hrowf : row ∈ db.steps.filter (·.runId = row.runId) :=
    List.mem_filter.mpr ⟨hmem, by simp⟩
  have hperm : List.Perm (get_steps_for_run db row.runId)
      (db.steps.filter (·.runId = row.runId)) :=
    List.perm_insertionSort _ _
  have hrow' : row ∈ get_steps_for_run db row.runId := hperm.mem_iff.mpr hrowf
  have hsome : ((get_steps_for_run db row.runId).find? (·.id = row.id)).isSome := by
    rw [List.find?_isSome]
    exact ⟨row, hrow', by simp⟩
  obtain ⟨x, hx⟩ := Option.isSome_iff_exists.mp hsome
  have hxmem : x ∈ get_steps_for_run db row.runId := List.mem_of_find?_eq_some hx
  have hxid : x.id = row.id := by simpa using List.find?_some hx
  have hxdb : x ∈ db.steps :=
    List.mem_of_mem_filter (hperm.mem_iff.mp hxmem)
  rw [hx, step_ids_nodup_unique hnd hxdb hmem hxid]

theorem check_step_result_update_step (db : DB) (i : Nat) (st : StepStatus)
    (a : Option Nat) (b : Option Nat) (c : Option String) (d : Option Nat)
    (e : Option Nat) (k : Nat) :
    check_step_result (update_step_status db i st a b c d e) k =
      check_step_result db k := rfl

theorem claim_key_phase_nextUuid (s : ExecSt) (stepRow : StepRow) :
    ((claim_key_phase s stepRow).1).nextUuid =
      (match stepRow.idempotencyKey with | some _ => s.nextUuid | none => s.nextUuid + 1) := by
  unfold claim_key_phase
  cases stepRow.idempotencyKey <;> rfl

theorem execute_step_rest_error_retry (s1 : ExecSt) (stepRow : StepRow) (k1 : Nat)
    (e : TaskError) (hc : check_step_result s1.db k1 = none)
    (hlt : stepRow.retryCount < stepRow.maxRetries) :
    execute_step_rest s1 stepRow k1 (.error e) =
      ({ s1 with
          db := update_step_status s1.db stepRow.id StepStatus.pending
            none none none (some s1.nextUuid) (some (stepRow.retryCount + 1))
          nextUuid := s1.nextUuid + 1 }, Outcome.retry, true) := by
  unfold execute_step_rest
  rw [hc]
  dsimp only [freshUuid]
  rw [if_pos hlt]

theorem execute_step_rest_error_exhaust (s1 : ExecSt) (stepRow : StepRow) (k1 : Nat)
    (e : TaskError) (hc : check_step_result s1.db k1 = none)
    (hge : ¬ stepRow.retryCount < stepRow.maxRetries) :
    execute_step_rest s1 stepRow k1 (.error e) =
      ({ s1 with
          db := update_step_status s1.db stepRow.id StepStatus.failed
            none (some s1.clock) (some e.msg) none none
          clock := s1.clock + 1 }, Outcome.failed, true) := by
  unfold execute_step_rest
  rw [hc]
  dsimp only [nowTick]
  rw [if_neg hge]

theorem check_step_result_claim_key_phase (s : ExecSt) (stepRow : StepRow) (k : Nat) :
    check_step_result ((claim_key_phase s stepRow).1).db k = check_step_result s.db k := by
  unfold check_step_result
  rw [claim_key_phase_stepResults]

theorem check_step_result_none_of_lt {db : DB} {n k : Nat}
    (hb : ∀ r ∈ db.stepResults, r.idempotencyKey < n)
    (hge : n ≤ k) : check_step_result db k = none := by
  unfold check_step_result
  apply List.find?_eq_none.mpr
  intro r hr
  have h1 := hb r hr
  simp only [decide_eq_true_eq]
  intro hEq
  rw [hEq] at h1
  exact Nat.lt_irrefl k (Nat.lt_of_lt_of_le h1 hge)

theorem update_step_status_comp (db : DB) (i : Nat)
    (st1 st2 : StepStatus) (a1 a2 b1 b2 : Option Nat) (c1 c2 : Option String)
    (d1 d2 : Option Nat) (e1 e2 : Option Nat) :
    update_step_status (update_step_status db i st1 a1 b1 c1 d1 e1) i st2 a2 b2 c2 d2 e2 =
      update_step_status db i st2
        (match a2 with | some x => some x | none => a1)
        (match b2 with | some x => some x | none => b1)
        (match c2 with | some x => some x | none => c1)
        (match d2 with | some x => some x | none => d1)
        (match e2 with | some x => some x | none => e1) := by
  unfold update_step_status
  dsimp only
  congr 1
  rw [List.map_map]
  apply List.map_congr_left
  intro x hx
  by_cases he : x.id = i
  · simp only [Function.comp_apply, he, if_true]
    cases a2 <;> cases b2 <;> cases c2 <;> cases d2 <;> cases e2 <;> rfl
  · simp [Function.comp_apply, he]

theorem execute_step_error_retry_state (s : ExecSt) (row : StepRow) (e : TaskError)
    (hkb : KeysBound s) (hmem : row ∈ s.db.steps)
    (hnores : ∀ k, row.idempotencyKey = some k → check_step_result s.db k = none)
    (hlt : row.retryCount < row.maxRetries) :
    ∃ K, s.nextUuid ≤ K ∧ row.idempotencyKey ≠ some K ∧
      execute_step s row (.error e) =
        ({ db := update_step_status s.db row.id StepStatus.pending
             (some s.clock) none none (some K) (some (row.retryCount + 1))
           clock := s.clock + 1
           nextUuid := K + 1 }, Outcome.retry, true) := by
  have hkey := claim_key_phase_key_eq s row
  have hc : check_step_result ((claim_key_phase s row).1).db (claim_key_phase s row).2 = none := by
    rw [check_step_result_claim_key_phase, hkey]
    cases hk : row.idempotencyKey with
    | some k => exact hnores k hk
    | none => exact check_step_result_none_of_lt hkb.1 (le_refl _)
  have hrest := execute_step_rest_error_retry ((claim_key_phase s row).1) row
    ((claim_key_phase s row).2) e hc hlt
  cases hk : row.idempotencyKey with
  | some k =>
    refine ⟨s.nextUuid, le_refl _, ?_, ?_⟩
    · have hlt2 := hkb.2 row hmem k hk
      simp only [ne_eq, Option.some.injEq]
      exact Nat.ne_of_lt hlt2
    · rw [execute_step_eq, hrest]
      unfold claim_key_phase
      rw [hk]
      dsimp only [nowTick]
      rw [update_step_status_comp]
  | none =>
    refine ⟨s.nextUuid + 1, Nat.le_succ _, by simp [hk], ?_⟩
    rw [execute_step_eq, hrest]
    unfold claim_key_phase
    rw [hk]
    dsimp only [nowTick, freshUuid]
    rw [update_step_status_comp]

theorem execute_step_error_exhaust_state (s : ExecSt) (row : StepRow) (e : TaskError)
    (hkb : KeysBound s)
    (hnores : ∀ k, row.idempotencyKey = some k → check_step_result s.db k = none)
    (hge : ¬ row.retryCount < row.maxRetries) :
    execute_step s row (.error e) =
      ({ db := update_step_status s.db row.id StepStatus.failed
           (some s.clock) (some (s.clock + 1)) (some e.msg)
           (some (match row.idempotencyKey with | some k => k | none => s.nextUuid)) none
         clock := s.clock + 2
         nextUuid := (match row.idempotencyKey with | some _ => s.nextUuid | none => s.nextUuid + 1) },
       Outcome.failed, true) := by
  have hkey := claim_key_phase_key_eq s row
  have hc : check_step_result ((claim_key_phase s row).1).db (claim_key_phase s row).2 = none := by
    rw [check_step_result_claim_key_phase, hkey]
    cases hk : row.idempotencyKey with
    | some k => exact hnores k hk
    | none => exact check_step_result_none_of_lt hkb.1 (le_refl _)
  have hrest := execute_step_rest_error_exhaust ((claim_key_phase s row).1) row
    ((claim_key_phase s row).2) e hc hge
  cases hk : row.idempotencyKey with
  | some k =>
    rw [execute_step_eq, hrest]
    unfold claim_key_phase
    rw [hk]
    dsimp only [nowTick]
    rw [update_step_status_comp]
  | none =>
    rw [execute_step_eq, hrest]
    unfold claim_key_phase
    rw [hk]
    dsimp only [nowTick, freshUuid]
    rw [update_step_status_comp]

theorem keys_bound_after_key_update (s : ExecSt) (rid : Nat) (st : StepStatus)
    (a b : Option Nat) (cm : Option String) (K : Nat) (rc : Option Nat)
    (cl : Nat) (hkb : KeysBound s) (hK : s.nextUuid ≤ K) :
    KeysBound
      ⟨update_step_status s.db rid st a b cm (some K) rc, cl, K + 1⟩ := by
  constructor
  · intro r hr
    rw [update_step_status_stepResults] at hr
    have := hkb.1 r hr
    show r.idempotencyKey < K + 1
    omega
  · intro st' hst' k hk
    show k < K + 1
    simp only [update_step_status, List.mem_map] at hst'
    obtain ⟨st0, hst0, rfl⟩ := hst'
    by_cases he : st0.id = rid
    · rw [if_pos he] at hk
      simp only at hk
      cases hk
      omega
    · rw [if_neg he] at hk
      have := hkb.2 st0 hst0 k hk
      omega

theorem update_step_status_self_mem {db : DB} {row : StepRow} (hmem : row ∈ db.steps)
    (st : StepStatus) (a b : Option Nat) (cm : Option String) (d : Option Nat)
    (e : Option Nat) :
    { row with
      status := st
      startedAt := match a with | some t => some t | none => row.startedAt
      completedAt := match b with | some t => some t | none => row.completedAt
      errorMessage := match cm with | some x => some x | none => row.errorMessage
      idempotencyKey := match d with | some k => some k | none => row.idempotencyKey
      retryCount := match e with | some c => c | none => row.retryCount } ∈
    (update_step_status db row.id st a b cm d e).steps := by
  unfold update_step_status
  dsimp only
  refine List.mem_map.mpr ⟨row, hmem, ?_⟩
  rw [if_pos rfl]

theorem run_step_loop_always_fail
    (oracle : Nat → Except TaskError String)
    (hfail : ∀ j, ∃ e2, oracle j = .error e2) :
    ∀ (d : Nat) (s : ExecSt) (row rowv : StepRow) (fuel i : Nat),
      StepIdsNodup s.db → KeysBound s → rowv ∈ s.db.steps →
      rowv.id = row.id → rowv.runId = row.runId →
      (∀ k, rowv.idempotencyKey = some k → check_step_result s.db k = none) →
      rowv.maxRetries - rowv.retryCount = d →
      d + 2 ≤ fuel →
      (run_step_loop oracle fuel i s row).2.1 = i + (d + 1) ∧
      (run_step_loop oracle fuel i s row).2.2.1 = true ∧
      (run_step_loop oracle fuel i s row).2.2.2 = d + 1 ∧
      ∃ rowf ∈ ((run_step_loop oracle fuel i s row).1).db.steps,
        rowf.id = row.id ∧ rowf.status = StepStatus.failed ∧
        rowf.retryCount = rowv.retryCount + d ∧
        ∃ m, rowf.errorMessage = some m := by
  intro d
  induction d with
  | zero =>
    intro s row rowv fuel i hnd hkb hmem hid hrid hnores hd hfuel
    obtain ⟨fuel, rfl⟩ : ∃ f, fuel = f + 1 := ⟨fuel - 1, by omega⟩
    have hge : ¬ rowv.retryCount < rowv.maxRetries := by omega
    obtain ⟨e2, he2⟩ := hfail i
    have hfetch : ((get_steps_for_run s.db row.runId).find? (·.id = row.id)).getD row = rowv := by
      rw [← hid, ← hrid, fetch_current hnd hmem]
      rfl
    have hstate := execute_step_error_exhaust_state s rowv e2 hkb hnores hge
    unfold run_step_loop
    dsimp only
    rw [hfetch, he2, hstate]
    dsimp only
    refine ⟨rfl, rfl, rfl, ?_⟩
    refine ⟨_, update_step_status_self_mem hmem StepStatus.failed (some s.clock)
      (some (s.clock + 1)) (some e2.msg)
      (some (match rowv.idempotencyKey with | some k => k | none => s.nextUuid)) none,
      hid, rfl, rfl, e2.msg, rfl⟩
  | succ d ih =>
    intro s row rowv fuel i hnd hkb hmem hid hrid hnores hd hfuel
    obtain ⟨fuel, rfl⟩ : ∃ f, fuel = f + 1 := ⟨fuel - 1, by omega⟩
    have hlt : rowv.retryCount < rowv.maxRetries := by omega
    obtain ⟨e2, he2⟩ := hfail i
    have hfetch : ((get_steps_for_run s.db row.runId).find? (·.id = row.id)).getD row = rowv := by
      rw [← hid, ← hrid, fetch_current hnd hmem]
      rfl
    obtain ⟨K, hK, hneK, hstate⟩ := execute_step_error_retry_state s rowv e2 hkb hmem hnores hlt
    unfold run_step_loop
    dsimp only
    rw [hfetch, he2, hstate]
    simp only [reduceIte]
    have hnd' : StepIdsNodup
        (update_step_status s.db rowv.id StepStatus.pending (some s.clock) none none
          (some K) (some (rowv.retryCount + 1))) := by
      show ((update_step_status s.db rowv.id StepStatus.pending (some s.clock) none none
        (some K) (some (rowv.retryCount + 1))).steps.map (·.id)).Nodup
      rw [update_step_status_id_map]
      exact hnd
    have hkb' : KeysBound
        ⟨update_step_status s.db rowv.id StepStatus.pending (some s.clock) none none
          (some K) (some (rowv.retryCount + 1)), s.clock + 1, K + 1⟩ :=
      keys_bound_after_key_update s rowv.id StepStatus.pending (some s.clock) none none K
        (some (rowv.retryCount + 1)) (s.clock + 1) hkb hK
    have hmem' : ({ rowv with
        status := StepStatus.pending
        startedAt := some s.clock
        idempotencyKey := some K
        retryCount := rowv.retryCount + 1 } : StepRow) ∈
        (update_step_status s.db rowv.id StepStatus.pending (some s.clock) none none
          (some K) (some (rowv.retryCount + 1))).steps :=
      update_step_status_self_mem hmem StepStatus.pending (some s.clock) none none
        (some K) (some (rowv.retryCount + 1))
    have hnores' : ∀ k, (some K : Option Nat) = some k →
        check_step_result (update_step_status s.db rowv.id StepStatus.pending (some s.clock)
          none none (some K) (some (rowv.retryCount + 1))) k = none := by
      intro k hkk
      cases hkk
      rw [check_step_result_update_step]
      exact check_step_result_none_of_lt
        (fun r hr => Nat.lt_of_lt_of_le (hkb.1 r hr) hK) (le_refl K)
    have ihres := ih
      ⟨update_step_status s.db rowv.id StepStatus.pending (some s.clock) none none
        (some K) (some (rowv.retryCount + 1)), s.clock + 1, K + 1⟩
      row
      { rowv with
        status := StepStatus.pending
        startedAt := some s.clock
        idempotencyKey := some K
        retryCount := rowv.retryCount + 1 }
      fuel (i + 1) hnd' hkb' hmem' hid hrid hnores'
      (by
        show rowv.maxRetries - (rowv.retryCount + 1) = d
        omega)
      (by omega)
    refine ⟨?_, ihres.2.1, ?_, ?_⟩
    · rw [ihres.1]
      omega
    · rw [ihres.2.2.1]
      omega
    · obtain ⟨rowf, hrf, hrfid, hrfst, hrfrc, hrfm⟩ := ihres.2.2.2
      refine ⟨rowf, hrf, hrfid, hrfst, ?_, hrfm⟩
      show rowf.retryCount = rowv.retryCount + (d + 1)
      have : rowf.retryCount = rowv.retryCount + 1 + d := hrfrc
      omega

theorem update_step_status_row_fields {db : DB} {i : Nat} {st : StepStatus}
    {a b : Option Nat} {cm : Option String} {d : Option Nat} {e : Option Nat} :
    ∀ st' ∈ (update_step_status db i st a b cm d e).steps, st'.id = i →
      st'.status = st ∧
      (∀ k, d = some k → st'.idempotencyKey = some k) ∧
      (∀ c, e = some c → st'.retryCount = c) ∧
      (∀ t, b = some t → st'.completedAt = some t) ∧
      (∀ m, cm = some m → st'.errorMessage = some m) := by
  intro st' hmem hid
  simp only [update_step_status, List.mem_map] at hmem
  obtain ⟨st0, hst0, rfl⟩ := hmem
  by_cases he : st0.id = i
  · rw [if_pos he]
    exact ⟨rfl, fun k hk => by rw [hk], fun c hc => by rw [hc],
      fun t ht => by rw [ht], fun m hm => by rw [hm]⟩
  · rw [if_neg he] at hid
    exact absurd hid he

/-- C3: when the task body raises `TaskExecutionError`: with retry budget
left, the step goes back to `pending` with `retry_count` incremented and a
fresh idempotency key different from the current one and the outcome is
`retry`; with the budget exhausted it is marked `failed` with `completed_at`
and a non-null `error_message` and the outcome is `failed`.  Consequently a
step entering with `retry_count = 0` whose task always fails is attempted
exactly `max_retries + 1` times by the retry loop and ends `failed` with
`retry_count = max_retries`. -/
theorem execute_step_retry_policy
    (s : ExecSt) (row : StepRow) (e : TaskError)
    (hnd : StepIdsNodup s.db) (hkb : KeysBound s) (hmem : row ∈ s.db.steps)
    (hnores : ∀ k, row.idempotencyKey = some k → check_step_result s.db k = none) :
    (row.retryCount < row.maxRetries →
      (execute_step s row (.error e)).2.1 = Outcome.retry ∧
      ∃ K, row.idempotencyKey ≠ some K ∧
        ∀ st' ∈ ((execute_step s row (.error e)).1).db.steps, st'.id = row.id →
          st'.status = StepStatus.pending ∧ st'.retryCount = row.retryCount + 1 ∧
          st'.idempotencyKey = some K) ∧
    (¬ row.retryCount < row.maxRetries →
      (execute_step s row (.error e)).2.1 = Outcome.failed ∧
      ∀ st' ∈ ((execute_step s row (.error e)).1).db.steps, st'.id = row.id →
        st'.status = StepStatus.failed ∧ st'.completedAt = some (s.clock + 1) ∧
        st'.errorMessage = some e.msg) ∧
    (∀ (oracle : Nat → Except TaskError String), (∀ j, ∃ e2, oracle j = .error e2) →
      row.retryCount = 0 →
      (run_step_loop oracle (row.maxRetries + 2) 0 s row).2.2.2 = row.maxRetries + 1 ∧
      (run_step_loop oracle (row.maxRetries + 2) 0 s row).2.2.1 = true ∧
      ∃ rowf ∈ ((run_step_loop oracle (row.maxRetries + 2) 0 s row).1).db.steps,
        rowf.id = row.id ∧ rowf.status = StepStatus.failed ∧
        rowf.retryCount = row.maxRetries ∧ ∃ m, rowf.errorMessage = some m) := by
  refine ⟨?_, ?_, ?_⟩
  · intro hlt
    obtain ⟨K, hK, hneK, hstate⟩ := execute_step_error_retry_state s row e hkb hmem hnores hlt
    rw [hstate]
    refine ⟨rfl, K, hneK, ?_⟩
    intro st' hmem' hid'
    have h := update_step_status_row_fields st' hmem' hid'
    exact ⟨h.1, h.2.2.1 _ rfl, h.2.1 _ rfl⟩
  · intro hge
    have hstate := execute_step_error_exhaust_state s row e hkb hnores hge
    rw [hstate]
    refine ⟨rfl, ?_⟩
    intro st' hmem' hid'
    have h := update_step_status_row_fields st' hmem' hid'
    exact ⟨h.1, h.2.2.2.1 _ rfl, h.2.2.2.2 _ rfl⟩
  · intro oracle hfail hrc0
    have hres := run_step_loop_always_fail oracle hfail row.maxRetries s row row
      (row.maxRetries + 2) 0 hnd hkb hmem rfl rfl hnores (by omega) (by omega)
    refine ⟨hres.2.2.1, hres.2.1, ?_⟩
    obtain ⟨rowf, hrf, hrfid, hrfst, hrfrc, hrfm⟩ := hres.2.2.2
    refine ⟨rowf, hrf, hrfid, hrfst, ?_, hrfm⟩
    omega

/-- C3 witness: the fresh pending step of `freshSt` (`max_retries = 1`,
`retry_count = 0`) run against an always-failing task oracle is attempted
exactly twice, and ends `failed` with `retry_count = 1` and a non-null
error message. -/
theorem execute_step_retry_policy_witness :
    (run_step_loop alwaysFail (freshStep.maxRetries + 2) 0 freshSt freshStep).2.2.2 = 2 ∧
    (run_step_loop alwaysFail (freshStep.maxRetries + 2) 0 freshSt freshStep).2.2.1 = true ∧
    ∃ rowf ∈
      ((run_step_loop alwaysFail (freshStep.maxRetries + 2) 0 freshSt freshStep).1).db.steps,
      rowf.id = 100 ∧ rowf.status = StepStatus.failed ∧ rowf.retryCount = 1 ∧
      ∃ m, rowf.errorMessage = some m := by
  have h := (execute_step_retry_policy freshSt freshStep ⟨"boom"⟩
    (by show ([100] : List Nat).Nodup; decide)
    ⟨fun r hr => absurd hr (List.not_mem_nil r),
     fun st hst k hk => by
       rw [show freshSt.db.steps = [freshStep] from rfl, List.mem_singleton] at hst
       subst hst
       exact Option.noConfusion hk⟩
    (by decide)
    (fun k hk => Option.noConfusion hk)).2.2 alwaysFail
    (fun j => ⟨⟨"boom"⟩, rfl⟩) rfl
  exact h

/-! ## Lemmas for the topological sort -/

theorem find?_range_some_char {n k : Nat} {p : Nat → Bool}
    (h : (List.range n).find? p = some k) : k < n ∧ p k ∧ ∀ j < k, ¬ p j := by
  have hk : p k := List.find?_some h
  have hmem : k ∈ List.range n := List.mem_of_find?_eq_some h
  obtain ⟨hp, as, bs, hsplit, hprev⟩ := List.find?_eq_some.mp h
  have hlen : as.length < n := by
    have := congrArg List.length hsplit
    simp at this
    omega
  have hask : k = as.length := by
    have h1 : (List.range n)[as.length]? = some as.length := List.getElem?_range hlen
    have h2 : (List.range n)[as.length]? = some k := by
      rw [hsplit, List.getElem?_append_right (le_refl as.length)]
      simp
    rw [h1] at h2
    exact (Option.some.injEq _ _ ▸ h2).symm
  have has : as = List.range as.length := by
    have h1 : (List.range n).take as.length = as := by
      rw [hsplit]
      exact List.take_left as (k :: bs)
    have h2 : (List.range n).take as.length = List.range as.length := by
      rw [List.take_range]
      congr 1
      omega
    rw [h1] at h2
    exact h2
  refine ⟨List.mem_range.mp hmem, hk, ?_⟩
  intro j hj
  have hjas : j ∈ as := by
    rw [has]
    exact List.mem_range.mpr (by omega)
  simpa using hprev j hjas

theorem find?_range_eq_some {n k : Nat} {p : Nat → Bool} :
    (List.range n).find? p = some k ↔ (k < n ∧ p k ∧ ∀ j < k, ¬ p j) := by
  constructor
  · exact find?_range_some_char
  · rintro ⟨hkn, hpk, hprev⟩
    cases h : (List.range n).find? p with
    | none =>
      exact absurd hpk (by
        have := List.find?_eq_none.mp h k (List.mem_range.mpr hkn)
        simpa using this)
    | some k2 =>
      obtain ⟨hk2n, hpk2, hprev2⟩ := find?_range_some_char h
      have : k2 = k := by
        rcases Nat.lt_trichotomy k2 k with hlt | heq | hgt
        · exact absurd hpk2 (hprev k2 hlt)
        · exact heq
        · exact absurd hpk (hprev2 k hgt)
      rw [this]

theorem readyPoint_spec {out deps : List String} {k : Nat} :
    readyPoint out deps = some k ↔
      (k ≤ out.length ∧ (∀ d ∈ deps, d ∈ out.take k) ∧
        ∀ j < k, ¬ (∀ d ∈ deps, d ∈ out.take j)) := by
  unfold readyPoint
  rw [find?_range_eq_some]
  constructor
  · rintro ⟨h1, h2, h3⟩
    refine ⟨by omega, by simpa using h2, ?_⟩
    intro j hj hall
    exact (h3 j hj) (by simpa using hall)
  · rintro ⟨h1, h2, h3⟩
    refine ⟨by omega, by simpa using h2, ?_⟩
    intro j hj hall
    exact (h3 j hj) (by simpa using hall)

theorem readyPoint_le {out deps : List String} {k : Nat}
    (h : readyPoint out deps = some k) : k ≤ out.length :=
  (readyPoint_spec.mp h).1

theorem readyPoint_append {out l2 deps : List String} {k : Nat}
    (h : readyPoint out deps = some k) : readyPoint (out ++ l2) deps = some k := by
  obtain ⟨h1, h2, h3⟩ := readyPoint_spec.mp h
  refine readyPoint_spec.mpr ⟨by simp; omega, ?_, ?_⟩
  · intro d hd
    rw [List.take_append_of_le_length h1]
    exact h2 d hd
  · intro j hj hall
    refine h3 j hj ?_
    intro d hd
    have := hall d hd
    rwa [List.take_append_of_le_length (by omega)] at this

theorem readyPoint_first_le {out deps : List String} {k j : Nat}
    (h : readyPoint out deps = some k) (hj : ∀ d ∈ deps, d ∈ out.take j) : k ≤ j := by
  obtain ⟨h1, h2, h3⟩ := readyPoint_spec.mp h
  by_contra hgt
  exact h3 j (by omega) hj

theorem readyPoint_prefix_some {out deps : List String} {i : Nat}
    (hi : i ≤ out.length) (hsub : ∀ d ∈ deps, d ∈ out.take i) :
    ∃ k ≤ i, readyPoint out deps = some k := by
  have hsome : (readyPoint out deps).isSome := by
    unfold readyPoint
    rw [List.find?_isSome]
    exact ⟨i, List.mem_range.mpr (by omega), by simpa using hsub⟩
  obtain ⟨k, hk⟩ := Option.isSome_iff_exists.mp hsome
  exact ⟨k, readyPoint_first_le hk hsub, hk⟩

theorem readyPoint_some_of_sub {out deps : List String}
    (hsub : ∀ d ∈ deps, d ∈ out) :
    ∃ k ≤ out.length, readyPoint out deps = some k :=
  readyPoint_prefix_some (le_refl _) (by simpa [List.take_length] using hsub)

theorem readyPoint_snoc_new {done deps : List String} {u0 : String}
    (hsub : ∀ d ∈ deps, d ∈ done ++ [u0])
    (hno : ¬ ∀ d ∈ deps, d ∈ done) :
    readyPoint (done ++ [u0]) deps = some (done.length + 1) := by
  refine readyPoint_spec.mpr ⟨by simp, ?_, ?_⟩
  · intro d hd
    have : List.take (done.length + 1) (done ++ [u0]) = done ++ [u0] := by
      rw [List.take_of_length_le (by simp)]
    rw [this]
    exact hsub d hd
  · intro j hj hall
    refine hno ?_
    intro d hd
    have := hall d hd
    rw [List.take_append_of_le_length (by omega)] at this
    exact List.mem_of_mem_take this

theorem wstep_unique {steps : List WStep} (hnd : (steps.map (·.id)).Nodup)
    {a b : WStep} (ha : a ∈ steps) (hb : b ∈ steps) (hid : a.id = b.id) : a = b :=
  List.inj_on_of_nodup_map hnd ha hb hid

theorem find_wstep_of_mem {steps : List WStep} (hnd : (steps.map (·.id)).Nodup)
    {st : WStep} (hmem : st ∈ steps) : steps.find? (·.id = st.id) = some st := by
  have hsome : (steps.find? (·.id = st.id)).isSome := by
    rw [List.find?_isSome]
    exact ⟨st, hmem, by simp⟩
  obtain ⟨x, hx⟩ := Option.isSome_iff_exists.mp hsome
  have hxmem : x ∈ steps := List.mem_of_find?_eq_some hx
  have hxid : x.id = st.id := by simpa using List.find?_some hx
  rw [hx, wstep_unique hnd hxmem hmem hxid]

theorem depOf_eq {steps : List WStep} (hnd : (steps.map (·.id)).Nodup)
    {st : WStep} (hmem : st ∈ steps) : depOf steps st.id = st.dependsOn := by
  unfold depOf
  rw [find_wstep_of_mem hnd hmem]

theorem mem_ids_iff {steps : List WStep} {v : String} :
    v ∈ steps.map (·.id) ↔ ∃ st ∈ steps, st.id = v := by
  simp [List.mem_map]

theorem depOf_sub_ids {steps : List WStep} (hwf : WFSteps steps) {v d : String}
    (hd : d ∈ depOf steps v) : d ∈ steps.map (·.id) := by
  unfold depOf at hd
  cases hf : steps.find? (·.id = v) with
  | none => rw [hf] at hd; cases hd
  | some st =>
    rw [hf] at hd
    exact hwf.2 st (List.mem_of_find?_eq_some hf) d hd

theorem depRel_char {steps : List WStep} (hnd : (steps.map (·.id)).Nodup)
    {a b : String} : DepRel steps a b ↔ (b ∈ steps.map (·.id) ∧ a ∈ depOf steps b) := by
  constructor
  · rintro ⟨st, hst, rfl, ha⟩
    rw [depOf_eq hnd hst]
    exact ⟨mem_ids_iff.mpr ⟨st, hst, rfl⟩, ha⟩
  · rintro ⟨hb, ha⟩
    obtain ⟨st, hst, rfl⟩ := mem_ids_iff.mp hb
    rw [depOf_eq hnd hst] at ha
    exact ⟨st, hst, rfl, ha⟩

theorem origIdx_lt {steps : List WStep} {v : String} (hv : v ∈ steps.map (·.id)) :
    origIdx steps v < steps.length := by
  unfold origIdx
  rw [List.findIdx_lt_length]
  obtain ⟨st, hst, rfl⟩ := mem_ids_iff.mp hv
  exact ⟨st, hst, by simp⟩

theorem origIdx_getElem?_id {steps : List WStep} {v : String} {st : WStep}
    (h : steps[origIdx steps v]? = some st) : st.id = v := by
  have := @List.findIdx_of_getElem?_eq_some WStep (fun w => decide (w.id = v)) st steps h
  simpa using this

theorem origIdx_inj {steps : List WStep} {u v : String}
    (hu : u ∈ steps.map (·.id)) (hv : v ∈ steps.map (·.id))
    (heq : origIdx steps u = origIdx steps v) : u = v := by
  have hb1 : origIdx steps u < steps.length := origIdx_lt hu
  obtain ⟨st, hst⟩ : ∃ st, steps[origIdx steps u]? = some st := by
    rw [List.getElem?_eq_getElem hb1]
    exact ⟨_, rfl⟩
  have hid1 : st.id = u := origIdx_getElem?_id hst
  have hst2 : steps[origIdx steps v]? = some st := by
    rw [← heq]
    exact hst
  have hid2 : st.id = v := origIdx_getElem?_id hst2
  rw [← hid1, hid2]

theorem origIdx_eq_indexOf (steps : List WStep) (v : String) :
    origIdx steps v = (steps.map (·.id)).indexOf v := by
  unfold origIdx
  induction steps with
  | nil => rfl
  | cons st rest ih =>
    rw [List.findIdx_cons, List.map_cons, List.indexOf_cons]
    by_cases he : st.id = v
    · simp [he]
    · simp only [he, decide_False, cond_false]
      rw [ih]
      have : (st.id == v) = false := by
        simpa using he
      rw [this]
      rfl

theorem sublist_pair_of_indexOf {ids l' : List String} (hsub : List.Sublist l' ids)
    (hnd : ids.Nodup) {u v : String} (hu : u ∈ l') (hv : v ∈ l')
    (hlt : ids.indexOf u < ids.indexOf v) : List.Sublist [u, v] l' := by
  induction hsub with
  | slnil => cases hu
  | cons x hs ih =>
    rename_i l₁ l₂
    have hxl : x ∉ l₂ := (List.nodup_cons.mp hnd).1
    have hnd2 : l₂.Nodup := (List.nodup_cons.mp hnd).2
    have hune : u ≠ x := by
      intro h
      subst h
      exact hxl (hs.subset hu)
    have hvne : v ≠ x := by
      intro h
      subst h
      exact hxl (hs.subset hv)
    refine ih hnd2 hu hv ?_
    rw [List.indexOf_cons, List.indexOf_cons] at hlt
    have h1 : (x == u) = false := by simpa using fun h => hune h.symm
    have h2 : (x == v) = false := by simpa using fun h => hvne h.symm
    rw [h1, h2] at hlt
    simpa using hlt
  | cons₂ x hs ih =>
    rename_i l₁ l₂
    have hxl : x ∉ l₂ := (List.nodup_cons.mp hnd).1
    have hnd2 : l₂.Nodup := (List.nodup_cons.mp hnd).2
    by_cases hux : u = x
    · subst hux
      have hvne : v ≠ u := by
        intro h
        subst h
        exact Nat.lt_irrefl _ hlt
      have hvl : v ∈ l₁ := by
        cases List.mem_cons.mp hv with
        | inl h => exact absurd h hvne
        | inr h => exact h
      exact List.cons_sublist_cons.mpr (List.singleton_sublist.mpr hvl)
    · have hul : u ∈ l₁ := by
        cases List.mem_cons.mp hu with
        | inl h => exact absurd h hux
        | inr h => exact h
      have hvx : v ≠ x := by
        intro h
        subst h
        rw [List.indexOf_cons_self] at hlt
        omega
      have hvl : v ∈ l₁ := by
        cases List.mem_cons.mp hv with
        | inl h => exact absurd h hvx
        | inr h => exact h
      have : List.Sublist [u, v] l₁ := by
        refine ih hnd2 hul hvl ?_
        rw [List.indexOf_cons, List.indexOf_cons] at hlt
        have h1 : (x == u) = false := by simpa using fun h => hux h.symm
        have h2 : (x == v) = false := by simpa using fun h => hvx h.symm
        rw [h1, h2] at hlt
        simpa using hlt
      exact this.cons x

theorem sublist_pair_of_sorted {steps : List WStep} {l : List String}
    (hsort : List.Pairwise (fun a b => origIdx steps a ≤ origIdx steps b) l)
    {u v : String} (hu : u ∈ l) (hv : v ∈ l)
    (hlt : origIdx steps u < origIdx steps v) : List.Sublist [u, v] l := by
  induction l with
  | nil => cases hu
  | cons x t ih =>
    have hx := (List.pairwise_cons.mp hsort).1
    have ht := (List.pairwise_cons.mp hsort).2
    by_cases hux : u = x
    · subst hux
      have hvne : v ≠ u := fun h => by subst h; exact Nat.lt_irrefl _ hlt
      have hvt : v ∈ t := by
        cases List.mem_cons.mp hv with
        | inl h => exact absurd h hvne
        | inr h => exact h
      exact List.cons_sublist_cons.mpr (List.singleton_sublist.mpr hvt)
    · have hut : u ∈ t := by
        cases List.mem_cons.mp hu with
        | inl h => exact absurd h hux
        | inr h => exact h
      have hvx : v ≠ x := by
        intro h
        subst h
        exact Nat.lt_irrefl _ (Nat.lt_of_lt_of_le hlt (hx u hut))
      have hvt : v ∈ t := by
        cases List.mem_cons.mp hv with
        | inl h => exact absurd h hvx
        | inr h => exact h
      exact (ih ht hut hvt).cons x

theorem pair_sublist_cons_elim {u v x : String} {t : List String}
    (h : List.Sublist [u, v] (x :: t)) (hne : u ≠ x) : List.Sublist [u, v] t := by
  cases h with
  | cons _ h2 => exact h2
  | cons₂ _ h2 => exact absurd rfl hne

theorem pair_sublist_head_mem {u v x : String} {t : List String}
    (h : List.Sublist [u, v] (x :: t)) (heq : u = x) : v ∈ t ∨ List.Sublist [u, v] t := by
  cases h with
  | cons _ h2 => exact Or.inr h2
  | cons₂ _ h2 => exact Or.inl (List.singleton_sublist.mp h2)

theorem indexOf_lt_of_mem_take {l : List String} {d : String} {i : Nat}
    (h : d ∈ l.take i) : l.indexOf d < i := by
  induction l generalizing i with
  | nil => simp at h
  | cons x t ih =>
    cases i with
    | zero => simp at h
    | succ j =>
      rw [List.take_succ_cons] at h
      by_cases hdx : x = d
      · subst hdx
        rw [List.indexOf_cons_self]
        omega
      · have hdt : d ∈ t.take j := by
          cases List.mem_cons.mp h with
          | inl h2 => exact absurd h2.symm hdx
          | inr h2 => exact h2
        rw [List.indexOf_cons]
        have hb : (x == d) = false := by simpa using hdx
        rw [hb]
        have := ih hdt
        simpa using Nat.succ_lt_succ this

theorem decDependents_val (l : List String) : ∀ (indeg : String → Int) (v : String),
    (decDependents indeg l).1 v = indeg v - List.count v l := by
  induction l with
  | nil => intro indeg v; simp [decDependents]
  | cons w rest ih =>
    intro indeg v
    unfold decDependents
    dsimp only
    split
    · rw [ih]
      by_cases he : v = w <;>
        simp [he, List.count_cons] <;> omega
    · rw [ih]
      by_cases he : v = w <;>
        simp [he, List.count_cons] <;> omega

theorem decDependents_newly (l : List String) : ∀ (indeg : String → Int),
    (∀ v ∈ l, (List.count v l : Int) ≤ indeg v) →
    ∀ v, (v ∈ (decDependents indeg l).2 ↔
      (1 ≤ List.count v l ∧ indeg v = (List.count v l : Int))) := by
  induction l with
  | nil => intro indeg hbig v; simp [decDependents]
  | cons w rest ih =>
    intro indeg hbig v
    have hbigw := hbig w (List.mem_cons_self w rest)
    have hcww : List.count w (w :: rest) = List.count w rest + 1 := by
      simp [List.count_cons]
    have hbig' : ∀ x ∈ rest, (List.count x rest : Int) ≤
        (fun y => if y = w then indeg w - 1 else indeg y) x := by
      intro x hx
      by_cases hxw : x = w
      · subst hxw
        simp only [if_pos rfl]
        rw [hcww] at hbigw
        push_cast at hbigw
        omega
      · have h2 := hbig x (List.mem_cons_of_mem w hx)
        have hc : List.count x (w :: rest) = List.count x rest := by
          rw [List.count_cons]
          have : (w == x) = false := by simpa using fun h => hxw h.symm
          rw [this]
          simp
        simp only [if_neg hxw]
        rw [hc] at h2
        exact h2
    unfold decDependents
    dsimp only
    have ihv := ih (fun y => if y = w then indeg w - 1 else indeg y) hbig' v
    by_cases hvw : v = w
    · subst hvw
      simp only [if_pos rfl] at ihv
      have hbw : (List.count v rest : Int) + 1 ≤ indeg v := by
        rw [hcww] at hbigw
        push_cast at hbigw
        omega
      rw [hcww]
      split <;> rename_i hnv
      · rw [List.mem_cons, ihv]
        constructor
        · intro h
          constructor
          · omega
          · push_cast
            omega
        · intro h
          exact Or.inl rfl
      · rw [ihv]
        constructor
        · intro h
          obtain ⟨h1, h2⟩ := h
          constructor
          · omega
          · push_cast
            push_cast at h2
            omega
        · intro h
          obtain ⟨h1, h2⟩ := h
          push_cast at h2
          constructor
          · omega
          · push_cast
            omega
    · have hc : List.count v (w :: rest) = List.count v rest := by
        rw [List.count_cons]
        have : (w == v) = false := by simpa using fun h => hvw h.symm
        rw [this]
        simp
      simp only [if_neg hvw] at ihv
      rw [hc]
      split <;> rename_i hnv
      · rw [List.mem_cons, ihv]
        constructor
        · intro h
          cases h with
          | inl h2 => exact absurd h2 hvw
          | inr h2 => exact h2
        · intro h
          exact Or.inr h
      · rw [ihv]

theorem decDependents_newly_sub {l : List String} {indeg : String → Int}
    (hbig : ∀ v ∈ l, (List.count v l : Int) ≤ indeg v) {v : String}
    (hv : v ∈ (decDependents indeg l).2) : v ∈ l :=
  List.one_le_count_iff.mp ((decDependents_newly l indeg hbig v).mp hv).1

theorem decDependents_newly_nodup (l : List String) : ∀ (indeg : String → Int),
    (∀ v ∈ l, (List.count v l : Int) ≤ indeg v) →
    (decDependents indeg l).2.Nodup := by
  induction l with
  | nil => intro indeg hbig; simp [decDependents]
  | cons w rest ih =>
    intro indeg hbig
    have hbigw := hbig w (List.mem_cons_self w rest)
    have hcww : List.count w (w :: rest) = List.count w rest + 1 := by
      simp [List.count_cons]
    have hbig' : ∀ x ∈ rest, (List.count x rest : Int) ≤
        (fun y => if y = w then indeg w - 1 else indeg y) x := by
      intro x hx
      by_cases hxw : x = w
      · subst hxw
        simp only [if_pos rfl]
        rw [hcww] at hbigw
        push_cast at hbigw
        omega
      · have h2 := hbig x (List.mem_cons_of_mem w hx)
        have hc : List.count x (w :: rest) = List.count x rest := by
          rw [List.count_cons]
          have : (w == x) = false := by simpa using fun h => hxw h.symm
          rw [this]
          simp
        simp only [if_neg hxw]
        rw [hc] at h2
        exact h2
    unfold decDependents
    dsimp only
    have ihn := ih (fun y => if y = w then indeg w - 1 else indeg y) hbig'
    split <;> rename_i hnv
    · refine List.nodup_cons.mpr ⟨?_, ihn⟩
      intro hwin
      have := (decDependents_newly rest _ hbig' w).mp hwin
      simp only [if_pos rfl] at this
      rw [hcww] at hbigw
      push_cast at hbigw
      omega
    · exact ihn

theorem length_filter_eq_count (l : List String) (u : String) :
    (l.filter (· = u)).length = List.count u l := by
  rw [List.count_eq_countP, ← List.countP_eq_length_filter]
  apply List.countP_congr
  intro a ha
  simp

theorem mem_dependentsOf {l : List WStep} {u x : String} :
    x ∈ dependentsOf l u ↔ ∃ st ∈ l, st.id = x ∧ u ∈ st.dependsOn := by
  unfold dependentsOf
  rw [List.mem_flatMap]
  constructor
  · rintro ⟨st, hst, hx⟩
    rw [List.mem_map] at hx
    obtain ⟨d, hd, rfl⟩ := hx
    have := List.mem_filter.mp hd
    refine ⟨st, hst, rfl, ?_⟩
    have hdu : d = u := by simpa using this.2
    rw [← hdu]
    exact this.1
  · rintro ⟨st, hst, rfl, hu⟩
    refine ⟨st, hst, ?_⟩
    rw [List.mem_map]
    exact ⟨u, List.mem_filter.mpr ⟨hu, by simp⟩, rfl⟩

theorem mem_dependentsOf_ids {l : List WStep} {u x : String}
    (h : x ∈ dependentsOf l u) : x ∈ l.map (·.id) := by
  obtain ⟨st, hst, rfl, _⟩ := mem_dependentsOf.mp h
  exact mem_ids_iff.mpr ⟨st, hst, rfl⟩

theorem count_dependentsOf : ∀ (l : List WStep), (l.map (·.id)).Nodup →
    ∀ (st : WStep), st ∈ l → ∀ u,
      List.count st.id (dependentsOf l u) = List.count u st.dependsOn := by
  intro l
  induction l with
  | nil => intro _ st hst; cases hst
  | cons hd rest ih =>
    intro hnd st hst u
    have hnd2 : (rest.map (·.id)).Nodup := by
      rw [List.map_cons] at hnd
      exact (List.nodup_cons.mp hnd).2
    have hhd : hd.id ∉ rest.map (·.id) := by
      rw [List.map_cons] at hnd
      exact (List.nodup_cons.mp hnd).1
    have hsplit : dependentsOf (hd :: rest) u =
        ((hd.dependsOn.filter (· = u)).map fun _ => hd.id) ++ dependentsOf rest u := by
      unfold dependentsOf
      rw [List.flatMap_cons]
    rw [hsplit, List.count_append]
    cases List.mem_cons.mp hst with
    | inl heq =>
      subst heq
      have h1 : List.count st.id ((st.dependsOn.filter (· = u)).map fun _ => st.id) =
          (st.dependsOn.filter (· = u)).length := by
        rw [List.count_eq_length.mpr]
        · rw [List.length_map]
        · intro b hb
          rw [List.mem_map] at hb
          obtain ⟨_, _, rfl⟩ := hb
          rfl
      have h2 : List.count st.id (dependentsOf rest u) = 0 := by
        rw [List.count_eq_zero]
        intro hmem
        exact hhd (mem_dependentsOf_ids hmem)
      rw [h1, h2, length_filter_eq_count]
      omega
    | inr hmem =>
      have hne : st.id ≠ hd.id := by
        intro h
        exact hhd (h ▸ mem_ids_iff.mpr ⟨st, hmem, rfl⟩)
      have h1 : List.count st.id ((hd.dependsOn.filter (· = u)).map fun _ => hd.id) = 0 := by
        rw [List.count_eq_zero]
        intro hmem2
        rw [List.mem_map] at hmem2
        obtain ⟨_, _, heq⟩ := hmem2
        exact hne heq.symm
      rw [h1, ih hnd2 st hmem u]
      omega

theorem countP_split (l : List String) (p q : String → Bool) :
    List.countP p l =
      List.countP (fun x => p x && q x) l + List.countP (fun x => p x && !q x) l := by
  induction l with
  | nil => simp
  | cons d t ih =>
    rw [List.countP_cons, List.countP_cons, List.countP_cons, ih]
    cases hp : p d <;> cases hq : q d <;> simp <;> omega

theorem count_le_countP {l : List String} {p : String → Bool} {a : String}
    (hpa : p a = true) : List.count a l ≤ List.countP p l := by
  rw [List.count_eq_countP]
  apply List.countP_mono_left
  intro x hx hbe
  have : x = a := by simpa using hbe
  rw [this]
  exact hpa

theorem countP_eq_count_iff {l : List String} {p : String → Bool} {a : String}
    (hpa : p a = true) :
    (List.countP p l = List.count a l ↔ ∀ d ∈ l, p d = true → d = a) := by
  induction l with
  | nil => simp
  | cons d t ih =>
    rw [List.countP_cons, List.count_cons]
    have hle : List.count a t ≤ List.countP p t := count_le_countP hpa
    constructor
    · intro h x hx hpx
      cases List.mem_cons.mp hx with
      | inl heq =>
        subst heq
        by_contra hne
        have hba : (x == a) = false := by simpa using hne
        rw [hba, hpx] at h
        simp at h
        omega
      | inr hmem =>
        refine (ih.mp ?_) x hmem hpx
        by_cases hda : d = a
        · subst hda
          rw [hpa] at h
          have hba : (d == d) = true := by simp
          rw [hba] at h
          simp at h
          omega
        · have hba : (d == a) = false := by simpa using hda
          rw [hba] at h
          simp at h
          cases hpd : p d
          · rw [hpd] at h
            simpa using h
          · rw [hpd] at h
            simp at h
            omega
    · intro h
      have ht : List.countP p t = List.count a t :=
        ih.mpr (fun x hx hpx => h x (List.mem_cons_of_mem d hx) hpx)
      rw [ht]
      by_cases hda : d = a
      · subst hda
        rw [hpa]
        have hba : (d == d) = true := by simp
        rw [hba]
      · have hba : (d == a) = false := by simpa using hda
        rw [hba]
        cases hpd : p d
        · simp
        · exact absurd (h d (List.mem_cons_self d t) hpd) hda

theorem done_closed {steps : List WStep} {done : List String}
    (htd : ∀ (i : Nat) (h : i < done.length),
      ∀ d ∈ depOf steps (done.get ⟨i, h⟩), d ∈ done.take i)
    {v : String} (hv : v ∈ done) : ∀ d ∈ depOf steps v, d ∈ done := by
  obtain ⟨⟨i, hi⟩, hget⟩ := List.mem_iff_get.mp hv
  intro d hd
  have := htd i hi d (by rw [hget]; exact hd)
  exact (List.take_sublist i done).subset this

theorem kahn_hbig {steps : List WStep} {done : List String} {indeg : String → Int}
    {u0 : String} (hnd : (steps.map (·.id)).Nodup)
    (hie : ∀ v ∈ steps.map (·.id),
      indeg v = ((depOf steps v).countP (fun d => !(done.contains d)) : Int))
    (hu0 : u0 ∉ done) :
    ∀ v ∈ dependentsOf steps u0,
      (List.count v (dependentsOf steps u0) : Int) ≤ indeg v := by
  intro v hv
  have hvid : v ∈ steps.map (·.id) := mem_dependentsOf_ids hv
  obtain ⟨st, hst, hstid⟩ := mem_ids_iff.mp hvid
  have hdep : depOf steps v = st.dependsOn := by
    rw [← hstid]; exact depOf_eq hnd hst
  have hcnt : List.count v (dependentsOf steps u0) = List.count u0 st.dependsOn := by
    rw [← hstid]; exact count_dependentsOf steps hnd st hst u0
  have hpa : (!(done.contains u0)) = true := by simpa using hu0
  have hle : List.count u0 st.dependsOn ≤
      st.dependsOn.countP (fun d => !(done.contains d)) := count_le_countP hpa
  rw [hie v hvid, hdep, hcnt]
  exact_mod_cast hle

theorem countP_snoc_remove {L done : List String} {u0 : String} (h : u0 ∉ done) :
    L.countP (fun d => !(done.contains d)) =
      L.countP (fun d => !((done ++ [u0]).contains d)) + List.count u0 L := by
  rw [countP_split L (fun d => !(done.contains d)) (fun d => !(d == u0))]
  congr 1
  · apply List.countP_congr
    intro a _
    by_cases hada : a ∈ done <;> by_cases hau : a = u0 <;>
      simp [hada, hau, h]
  · rw [List.count_eq_countP]
    apply List.countP_congr
    intro a _
    by_cases hau : a = u0
    · subst hau
      simp [h]
    · simp [hau]

theorem newly_ready_iff {steps : List WStep} {done : List String} {indeg : String → Int}
    {u0 : String} (hnd : (steps.map (·.id)).Nodup)
    (hie : ∀ v ∈ steps.map (·.id),
      indeg v = ((depOf steps v).countP (fun d => !(done.contains d)) : Int))
    (htd : ∀ (i : Nat) (h : i < done.length),
      ∀ d ∈ depOf steps (done.get ⟨i, h⟩), d ∈ done.take i)
    (hu0 : u0 ∉ done) (hready : ∀ d ∈ depOf steps u0, d ∈ done) :
    ∀ v, v ∈ (decDependents indeg (dependentsOf steps u0)).2 ↔
      (v ∈ steps.map (·.id) ∧ v ∉ done ++ [u0] ∧
        (∀ d ∈ depOf steps v, d ∈ done ++ [u0]) ∧
        ¬ (∀ d ∈ depOf steps v, d ∈ done)) := by
  intro v
  have hbig := kahn_hbig hnd hie hu0
  rw [decDependents_newly _ _ hbig v]
  have hpa : (!(done.contains u0)) = true := by simpa using hu0
  constructor
  · rintro ⟨h1, h2⟩
    have hvdeps : v ∈ dependentsOf steps u0 := List.one_le_count_iff.mp h1
    have hvid : v ∈ steps.map (·.id) := mem_dependentsOf_ids hvdeps
    obtain ⟨st, hst, hstid⟩ := mem_ids_iff.mp hvid
    have hdep : depOf steps v = st.dependsOn := by
      rw [← hstid]; exact depOf_eq hnd hst
    have hcnt : List.count v (dependentsOf steps u0) = List.count u0 st.dependsOn := by
      rw [← hstid]; exact count_dependentsOf steps hnd st hst u0
    have heqc : st.dependsOn.countP (fun d => !(done.contains d)) =
        List.count u0 st.dependsOn := by
      have := h2
      rw [hie v hvid, hdep, hcnt] at this
      exact_mod_cast this
    have hall : ∀ d ∈ st.dependsOn, (!(done.contains d)) = true → d = u0 :=
      (countP_eq_count_iff hpa).mp heqc
    have hu0dep : u0 ∈ st.dependsOn := by
      rw [hcnt] at h1
      exact List.one_le_count_iff.mp h1
    have hsub : ∀ d ∈ depOf steps v, d ∈ done ++ [u0] := by
      intro d hd
      rw [hdep] at hd
      by_cases hdd : d ∈ done
      · exact List.mem_append_left _ hdd
      · have : d = u0 := hall d hd (by simpa using hdd)
        subst this
        exact List.mem_append_right _ (List.mem_singleton.mpr rfl)
    have hnsub : ¬ (∀ d ∈ depOf steps v, d ∈ done) := by
      intro hcon
      exact hu0 (hcon u0 (by rw [hdep]; exact hu0dep))
    have hvnd : v ∉ done := by
      intro hvdone
      exact hnsub (done_closed htd hvdone)
    have hvne : v ≠ u0 := by
      intro h
      subst h
      exact hnsub hready
    refine ⟨hvid, ?_, hsub, hnsub⟩
    intro hmem
    cases List.mem_append.mp hmem with
    | inl h => exact hvnd h
    | inr h => exact hvne (List.mem_singleton.mp h)
  · rintro ⟨hvid, hvnd, hsub, hnsub⟩
    obtain ⟨st, hst, hstid⟩ := mem_ids_iff.mp hvid
    have hdep : depOf steps v = st.dependsOn := by
      rw [← hstid]; exact depOf_eq hnd hst
    have hcnt : List.count v (dependentsOf steps u0) = List.count u0 st.dependsOn := by
      rw [← hstid]; exact count_dependentsOf steps hnd st hst u0
    obtain ⟨d0, hd0, hd0nd⟩ : ∃ d ∈ depOf steps v, d ∉ done := by
      by_contra hcon
      push_neg at hcon
      exact hnsub hcon
    have hd0u0 : d0 = u0 := by
      cases List.mem_append.mp (hsub d0 hd0) with
      | inl h => exact absurd h hd0nd
      | inr h => exact List.mem_singleton.mp h
    have hu0dep : u0 ∈ st.dependsOn := by
      rw [hdep] at hd0
      rw [← hd0u0]
      exact hd0
    have h1 : 1 ≤ List.count v (dependentsOf steps u0) := by
      rw [hcnt]
      exact List.one_le_count_iff.mpr hu0dep
    refine ⟨h1, ?_⟩
    rw [hie v hvid, hdep, hcnt]
    have heqc : st.dependsOn.countP (fun d => !(done.contains d)) =
        List.count u0 st.dependsOn := by
      refine (countP_eq_count_iff hpa).mpr ?_
      intro d hd hdnd
      have hdnd2 : d ∉ done := by simpa using hdnd
      cases List.mem_append.mp (hsub d (by rw [hdep]; exact hd)) with
      | inl h => exact absurd h hdnd2
      | inr h => exact List.mem_singleton.mp h
    exact_mod_cast heqc

theorem kahn_inv_step {steps : List WStep} {done : List String} {indeg : String → Int}
    {u0 : String} {rest : List String}
    (hwf : WFSteps steps)
    (hinv : KahnInv steps done indeg (u0 :: rest)) :
    KahnInv steps (done ++ [u0])
      (decDependents indeg (dependentsOf steps u0)).1
      (rest ++ List.insertionSort (fun a b => origIdx steps a ≤ origIdx steps b)
        (decDependents indeg (dependentsOf steps u0)).2) := by
  obtain ⟨hnd, hres⟩ := hwf
  obtain ⟨hu0id, hu0nd, hu0ready⟩ := (hinv.queueChar u0).mp (List.mem_cons_self u0 rest)
  have hu0rest : u0 ∉ rest := (List.nodup_cons.mp hinv.queueNodup).1
  have hrestnd : rest.Nodup := (List.nodup_cons.mp hinv.queueNodup).2
  have hbig := kahn_hbig hnd hinv.indegEq hu0nd
  have hnchar := newly_ready_iff hnd hinv.indegEq hinv.topoDone hu0nd hu0ready
  have hperm := List.perm_insertionSort (fun a b => origIdx steps a ≤ origIdx steps b)
      (decDependents indeg (dependentsOf steps u0)).2
  have hbmem : ∀ v, v ∈ List.insertionSort (fun a b => origIdx steps a ≤ origIdx steps b)
      (decDependents indeg (dependentsOf steps u0)).2 ↔
      v ∈ (decDependents indeg (dependentsOf steps u0)).2 := fun v => hperm.mem_iff
  have hbnd := hperm.nodup_iff.mpr (decDependents_newly_nodup _ _ hbig)
  have hrestc : ∀ v ∈ rest, v ∈ steps.map (·.id) ∧ v ∉ done ++ [u0] ∧
      ∀ d ∈ depOf steps v, d ∈ done := by
    intro v hv
    obtain ⟨h1, h2, h3⟩ := (hinv.queueChar v).mp (List.mem_cons_of_mem u0 hv)
    refine ⟨h1, ?_, h3⟩
    intro hmem
    cases List.mem_append.mp hmem with
    | inl hh => exact h2 hh
    | inr hh => exact hu0rest (List.mem_singleton.mp hh ▸ hv)
  have hQC : ∀ v, v ∈ rest ++ List.insertionSort
      (fun a b => origIdx steps a ≤ origIdx steps b)
      (decDependents indeg (dependentsOf steps u0)).2 ↔
      (v ∈ steps.map (·.id) ∧ v ∉ done ++ [u0] ∧
        ∀ d ∈ depOf steps v, d ∈ done ++ [u0]) := by
    intro v
    constructor
    · intro hv
      cases List.mem_append.mp hv with
      | inl hr =>
        obtain ⟨h1, h2, h3⟩ := hrestc v hr
        exact ⟨h1, h2, fun d hd => List.mem_append_left _ (h3 d hd)⟩
      | inr hb =>
        have hc := (hnchar v).mp ((hbmem v).mp hb)
        exact ⟨hc.1, hc.2.1, hc.2.2.1⟩
    · rintro ⟨h1, h2, h3⟩
      by_cases hall : ∀ d ∈ depOf steps v, d ∈ done
      · have hvq : v ∈ u0 :: rest := (hinv.queueChar v).mpr
          ⟨h1, fun hc => h2 (List.mem_append_left _ hc), hall⟩
        have hvne : v ≠ u0 := by
          intro h
          refine h2 (List.mem_append_right _ ?_)
          rw [h]
          exact List.mem_singleton.mpr rfl
        cases List.mem_cons.mp hvq with
        | inl h => exact absurd h hvne
        | inr h => exact List.mem_append_left _ h
      · exact List.mem_append_right _ ((hbmem v).mpr ((hnchar v).mpr ⟨h1, h2, h3, hall⟩))
  have hrpOld : ∀ v, (∀ d ∈ depOf steps v, d ∈ done) →
      ∃ k ≤ done.length, readyPoint done (depOf steps v) = some k ∧
        readyPoint (done ++ [u0]) (depOf steps v) = some k := by
    intro v hv
    obtain ⟨k, hk, hrp⟩ := readyPoint_prefix_some (le_refl done.length)
      (by rw [List.take_length]; exact hv)
    exact ⟨k, hk, hrp, readyPoint_append hrp⟩
  have hrpBatch : ∀ v ∈ List.insertionSort (fun a b => origIdx steps a ≤ origIdx steps b)
      (decDependents indeg (dependentsOf steps u0)).2,
      readyPoint (done ++ [u0]) (depOf steps v) = some (done.length + 1) := by
    intro v hb
    have hc := (hnchar v).mp ((hbmem v).mp hb)
    exact readyPoint_snoc_new hc.2.2.1 hc.2.2.2
  refine ⟨?_, ?_, ?_, ?_, ?_, ?_, ?_, ?_, ?_, ?_⟩
  · refine List.Nodup.append hinv.doneNodup (by simp) ?_
    intro a ha hb
    rw [List.mem_singleton] at hb
    subst hb
    exact hu0nd ha
  · intro x hx
    cases List.mem_append.mp hx with
    | inl h => exact hinv.doneSub x h
    | inr h =>
      rw [List.mem_singleton] at h
      subst h
      exact hu0id
  · refine List.Nodup.append hrestnd hbnd ?_
    intro a ha hb2
    obtain ⟨_, _, h3⟩ := hrestc a ha
    exact ((hnchar a).mp ((hbmem a).mp hb2)).2.2.2 h3
  · intro x hx
    exact ((hQC x).mp hx).2.1
  · intro v hvid
    obtain ⟨st, hst, hstid⟩ := mem_ids_iff.mp hvid
    have hdep : depOf steps v = st.dependsOn := by
      rw [← hstid]; exact depOf_eq hnd hst
    have hcnt : List.count v (dependentsOf steps u0) = List.count u0 st.dependsOn := by
      rw [← hstid]; exact count_dependentsOf steps hnd st hst u0
    rw [decDependents_val, hinv.indegEq v hvid, hcnt, hdep, countP_snoc_remove hu0nd]
    push_cast
    omega
  · exact hQC
  · intro i hi d hd
    rw [List.get_eq_getElem] at hd
    by_cases hlt : i < done.length
    · have he : (done ++ [u0])[i] = done[i] := List.getElem_append_left hlt
      rw [he] at hd
      have hold := hinv.topoDone i hlt d (by rw [List.get_eq_getElem]; exact hd)
      rw [List.take_append_of_le_length (le_of_lt hlt)]
      exact hold
    · have hi2 : i < done.length + 1 := by simpa using hi
      have hieq : i = done.length := by omega
      subst hieq
      have he : (done ++ [u0])[done.length] = u0 := by
        rw [List.getElem_append_right (le_refl done.length)]
        simp
      rw [he] at hd
      rw [List.take_append_of_le_length (le_refl done.length), List.take_length]
      exact hu0ready d hd
  · intro u hu v hv hne hrp hlt
    cases List.mem_append.mp hu with
    | inl hur =>
      cases List.mem_append.mp hv with
      | inl hvr =>
        obtain ⟨ku, hkule, hkud, hkud2⟩ := hrpOld u (hrestc u hur).2.2
        obtain ⟨kv, hkvle, hkvd, hkvd2⟩ := hrpOld v (hrestc v hvr).2.2
        rw [hkud2, hkvd2] at hrp
        have hkk : ku = kv := Option.some.inj hrp
        have hold := hinv.ordQueue u (List.mem_cons_of_mem _ hur) v
          (List.mem_cons_of_mem _ hvr) hne (by rw [hkud, hkvd, hkk]) hlt
        have hu_ne : u ≠ u0 := fun h => hu0rest (h ▸ hur)
        exact (pair_sublist_cons_elim hold hu_ne).trans (List.sublist_append_left rest _)
      | inr hvb =>
        obtain ⟨ku, hkule, hkud, hkud2⟩ := hrpOld u (hrestc u hur).2.2
        have hb := hrpBatch v hvb
        rw [hkud2, hb] at hrp
        have h2 := Option.some.inj hrp
        exact absurd h2 (by omega)
    | inr hub =>
      cases List.mem_append.mp hv with
      | inl hvr =>
        obtain ⟨kv, hkvle, hkvd, hkvd2⟩ := hrpOld v (hrestc v hvr).2.2
        have hb := hrpBatch u hub
        rw [hb, hkvd2] at hrp
        have h2 := Option.some.inj hrp
        exact absurd h2.symm (by omega)
      | inr hvb =>
        have hsorted : List.Pairwise (fun a b => origIdx steps a ≤ origIdx steps b)
            (List.insertionSort (fun a b => origIdx steps a ≤ origIdx steps b)
              (decDependents indeg (dependentsOf steps u0)).2) := by
          letI : IsTotal String (fun a b => origIdx steps a ≤ origIdx steps b) :=
            ⟨fun a b => Nat.le_total _ _⟩
          letI : IsTrans String (fun a b => origIdx steps a ≤ origIdx steps b) :=
            ⟨fun a b c hab hbc => Nat.le_trans hab hbc⟩
          exact List.sorted_insertionSort _ _
        exact (sublist_pair_of_sorted hsorted hub hvb hlt).trans
          (List.sublist_append_right rest _)
  · intro u hu v hv hrp
    cases List.mem_append.mp hu with
    | inl hud =>
      obtain ⟨ku, hkule, hkud, hkud2⟩ := hrpOld u (done_closed hinv.topoDone hud)
      cases List.mem_append.mp hv with
      | inl hvr =>
        obtain ⟨kv, hkvle, hkvd, hkvd2⟩ := hrpOld v (hrestc v hvr).2.2
        rw [hkud2, hkvd2] at hrp
        have hkk : ku = kv := Option.some.inj hrp
        exact hinv.ordCross u hud v (List.mem_cons_of_mem _ hvr) (by rw [hkud, hkvd, hkk])
      | inr hvb =>
        have hb := hrpBatch v hvb
        rw [hkud2, hb] at hrp
        have h2 := Option.some.inj hrp
        exact absurd h2 (by omega)
    | inr huu0 =>
      rw [List.mem_singleton] at huu0
      subst huu0
      obtain ⟨ku, hkule, hkud, hkud2⟩ := hrpOld u hu0ready
      cases List.mem_append.mp hv with
      | inl hvr =>
        obtain ⟨kv, hkvle, hkvd, hkvd2⟩ := hrpOld v (hrestc v hvr).2.2
        rw [hkud2, hkvd2] at hrp
        have hkk : ku = kv := Option.some.inj hrp
        by_contra hge
        push_neg at hge
        have hvne : v ≠ u := fun h => hu0rest (h ▸ hvr)
        have hne2 : origIdx steps v ≠ origIdx steps u := by
          intro h
          exact hvne (origIdx_inj (hrestc v hvr).1 hu0id h)
        have hltv : origIdx steps v < origIdx steps u := lt_of_le_of_ne hge hne2
        have hold := hinv.ordQueue v (List.mem_cons_of_mem _ hvr) u
          (List.mem_cons_self _ _) hvne (by rw [hkvd, hkud, hkk]) hltv
        have hsub2 : List.Sublist [v, u] rest := pair_sublist_cons_elim hold hvne
        exact hu0rest (hsub2.subset (by simp))
      | inr hvb =>
        have hb := hrpBatch v hvb
        rw [hkud2, hb] at hrp
        have h2 := Option.some.inj hrp
        exact absurd h2 (by omega)
  · intro u hu v hv hne hrp hlt
    cases List.mem_append.mp hu with
    | inl hud =>
      cases List.mem_append.mp hv with
      | inl hvd =>
        obtain ⟨ku, hkule, hkud, hkud2⟩ := hrpOld u (done_closed hinv.topoDone hud)
        obtain ⟨kv, hkvle, hkvd, hkvd2⟩ := hrpOld v (done_closed hinv.topoDone hvd)
        rw [hkud2, hkvd2] at hrp
        have hkk : ku = kv := Option.some.inj hrp
        have hold := hinv.ordDone u hud v hvd hne (by rw [hkud, hkvd, hkk]) hlt
        exact hold.trans (List.sublist_append_left done _)
      | inr hvu0 =>
        rw [List.mem_singleton] at hvu0
        subst hvu0
        have h1 : List.Sublist [u] done := List.singleton_sublist.mpr hud
        exact List.Sublist.append h1 (List.Sublist.refl [v])
    | inr huu0 =>
      rw [List.mem_singleton] at huu0
      subst huu0
      cases List.mem_append.mp hv with
      | inl hvd =>
        obtain ⟨ku, hkule, hkud, hkud2⟩ := hrpOld u hu0ready
        obtain ⟨kv, hkvle, hkvd, hkvd2⟩ := hrpOld v (done_closed hinv.topoDone hvd)
        rw [hkud2, hkvd2] at hrp
        have hkk : ku = kv := Option.some.inj hrp
        have hcr := hinv.ordCross v hvd u (List.mem_cons_self _ _)
          (by rw [hkvd, hkud, hkk])
        omega
      | inr hvu0 =>
        rw [List.mem_singleton] at hvu0
        exact absurd hvu0.symm hne

theorem kahnLoop_zero (steps : List WStep) (indeg : String → Int) (queue : List String) :
    kahnLoop steps 0 indeg queue = [] := rfl

theorem kahnLoop_nil (steps : List WStep) (fuel : Nat) (indeg : String → Int) :
    kahnLoop steps (fuel + 1) indeg [] = [] := rfl

theorem kahnLoop_cons (steps : List WStep) (fuel : Nat) (indeg : String → Int)
    (u0 : String) (rest : List String) :
    kahnLoop steps (fuel + 1) indeg (u0 :: rest) =
      u0 :: kahnLoop steps fuel (decDependents indeg (dependentsOf steps u0)).1
        (rest ++ List.insertionSort (fun a b => origIdx steps a ≤ origIdx steps b)
          (decDependents indeg (dependentsOf steps u0)).2) := rfl

theorem done_length_le {steps : List WStep} {done : List String}
    (hnd : done.Nodup) (hsub : ∀ x ∈ done, x ∈ steps.map (·.id)) :
    done.length ≤ steps.length := by
  have hsp : done.Subperm (steps.map (·.id)) :=
    List.subperm_of_subset hnd (fun x hx => hsub x hx)
  have := hsp.length_le
  rwa [List.length_map] at this

theorem kahnOut_shift {steps : List WStep} {done out : List String} {u0 : String}
    (hu0 : u0 ∈ steps.map (·.id))
    (h : KahnOut steps (done ++ [u0]) out) : KahnOut steps done (u0 :: out) := by
  have heq : done ++ u0 :: out = (done ++ [u0]) ++ out := by simp
  refine ⟨?_, ?_, ?_, ?_, ?_⟩
  · rw [heq]
    exact h.fullNodup
  · intro x hx
    cases List.mem_cons.mp hx with
    | inl he => exact he ▸ hu0
    | inr hm => exact h.outSub x hm
  · rw [heq]
    exact h.topoFull
  · intro v hv hnin
    rw [heq] at hnin
    rw [heq]
    exact h.blocked v hv hnin
  · intro u v k hu hv hne hrpu hrpv hlt
    rw [heq] at hrpu hrpv
    rw [heq]
    exact h.stable u v k hu hv hne hrpu hrpv hlt

theorem kahn_main {steps : List WStep} (hwf : WFSteps steps) :
    ∀ (fuel : Nat) (done : List String) (indeg : String → Int) (queue : List String),
    KahnInv steps done indeg queue →
    steps.length + 1 ≤ fuel + done.length →
    KahnOut steps done (kahnLoop steps fuel indeg queue) := by
  intro fuel
  induction fuel with
  | zero =>
    intro done indeg queue hinv hfuel
    have := done_length_le hinv.doneNodup hinv.doneSub
    omega
  | succ f ih =>
    intro done indeg queue hinv hfuel
    cases queue with
    | nil =>
      rw [kahnLoop_nil]
      refine ⟨?_, ?_, ?_, ?_, ?_⟩
      · rw [List.append_nil]
        exact hinv.doneNodup
      · intro x hx
        cases hx
      · intro i hi d hd
        have hi2 : i < done.length := by simpa using hi
        have hget : (done ++ []).get ⟨i, hi⟩ = done.get ⟨i, hi2⟩ := by
          rw [List.get_eq_getElem, List.get_eq_getElem]
          exact List.getElem_append_left hi2
        rw [hget] at hd
        have := hinv.topoDone i hi2 d hd
        simpa using this
      · intro v hv hnin
        rw [List.append_nil] at hnin
        intro hall
        have : v ∈ ([] : List String) := (hinv.queueChar v).mpr
          ⟨hv, hnin, by simpa using hall⟩
        cases this
      · intro u v k hu hv hne hrpu hrpv hlt
        simp only [List.append_nil] at hrpu hrpv ⊢
        have hmemof : ∀ w, w ∈ steps.map (·.id) →
            readyPoint done (depOf steps w) = some k → w ∈ done := by
          intro w hw hrp
          by_contra hnd2
          have hready : ∀ d ∈ depOf steps w, d ∈ done := by
            intro d hd
            have := (readyPoint_spec.mp hrp).2.1 d hd
            exact List.mem_of_mem_take this
          have : w ∈ ([] : List String) := (hinv.queueChar w).mpr ⟨hw, hnd2, hready⟩
          cases this
        exact hinv.ordDone u (hmemof u hu hrpu) v (hmemof v hv hrpv) hne
          (by rw [hrpu, hrpv]) hlt
    | cons u0 rest =>
      rw [kahnLoop_cons]
      have hu0id : u0 ∈ steps.map (·.id) :=
        ((hinv.queueChar u0).mp (List.mem_cons_self u0 rest)).1
      have hinv2 := kahn_inv_step hwf hinv
      have hlen : (done ++ [u0]).length = done.length + 1 := by simp
      refine kahnOut_shift hu0id (ih (done ++ [u0]) _ _ hinv2 ?_)
      rw [hlen]
      omega

theorem kahn_init {steps : List WStep} (hwf : WFSteps steps) :
    KahnInv steps [] (fun sid => ((depOf steps sid).length : Int))
      ((steps.filter fun st => ((depOf steps st.id).length : Int) = 0).map (·.id)) := by
  obtain ⟨hnd, hres⟩ := hwf
  have hseedsub : List.Sublist
      ((steps.filter fun st => ((depOf steps st.id).length : Int) = 0).map (·.id))
      (steps.map (·.id)) :=
    (List.filter_sublist steps).map (·.id)
  refine ⟨List.nodup_nil, ?_, ?_, ?_, ?_, ?_, ?_, ?_, ?_, ?_⟩
  · intro x hx
    cases hx
  · exact hnd.sublist hseedsub
  · intro x hx hc
    cases hc
  · intro v hvid
    have hcp : List.countP (fun d => !(([] : List String).contains d))
        (depOf steps v) = (depOf steps v).length := by
      rw [List.countP_eq_length]
      intro a _
      simp
    rw [hcp]
  · intro v
    constructor
    · intro hv
      rw [List.mem_map] at hv
      obtain ⟨st, hstf, hstid⟩ := hv
      have hst := List.mem_filter.mp hstf
      have hpred : ((depOf steps st.id).length : Int) = 0 := by simpa using hst.2
      have hlen0 : (depOf steps st.id).length = 0 := by exact_mod_cast hpred
      refine ⟨mem_ids_iff.mpr ⟨st, hst.1, hstid⟩, by simp, ?_⟩
      intro d hd
      rw [← hstid] at hd
      rw [List.length_eq_zero.mp hlen0] at hd
      cases hd
    · rintro ⟨h1, _, h3⟩
      obtain ⟨st, hst, hstid⟩ := mem_ids_iff.mp h1
      have hnil : depOf steps v = [] := by
        rw [List.eq_nil_iff_forall_not_mem]
        intro d hd
        cases h3 d hd
      rw [List.mem_map]
      refine ⟨st, List.mem_filter.mpr ⟨hst, ?_⟩, hstid⟩
      rw [hstid, hnil]
      simp
  · intro i hi
    cases hi
  · intro u hu v hv hne hrp hlt
    rw [origIdx_eq_indexOf, origIdx_eq_indexOf] at hlt
    exact sublist_pair_of_indexOf hseedsub hnd hu hv hlt
  · intro u hu
    cases hu
  · intro u hu
    cases hu

theorem filterMap_find_props {steps : List WStep} (hnd : (steps.map (·.id)).Nodup) :
    ∀ (l : List String), (∀ x ∈ l, x ∈ steps.map (·.id)) →
      ((l.filterMap fun sid => steps.find? (·.id = sid)).map (·.id) = l ∧
        (l.filterMap fun sid => steps.find? (·.id = sid)).length = l.length ∧
        ∀ w ∈ l.filterMap fun sid => steps.find? (·.id = sid), w ∈ steps) := by
  intro l
  induction l with
  | nil =>
    intro _
    exact ⟨rfl, rfl, fun w hw => by cases hw⟩
  | cons x t ih =>
    intro hsub
    obtain ⟨st, hst, hstid⟩ := mem_ids_iff.mp (hsub x (List.mem_cons_self x t))
    have hfind : steps.find? (·.id = x) = some st := by
      rw [← hstid]
      exact find_wstep_of_mem hnd hst
    obtain ⟨ih1, ih2, ih3⟩ := ih (fun y hy => hsub y (List.mem_cons_of_mem x hy))
    rw [List.filterMap_cons, hfind]
    refine ⟨?_, ?_, ?_⟩
    · rw [List.map_cons, ih1, hstid]
    · simp [ih2]
    · intro w hw
      cases List.mem_cons.mp hw with
      | inl he => exact he ▸ hst
      | inr hm => exact ih3 w hm

theorem acyclic_all_in {steps : List WStep} {out : List String} (hwf : WFSteps steps)
    (hout : KahnOut steps [] out) (hnc : ¬ HasCycle steps) :
    ∀ v ∈ steps.map (·.id), v ∈ out := by
  by_contra hcon
  push_neg at hcon
  obtain ⟨v0, hv0id, hv0out⟩ := hcon
  letI : Finite {x : String // x ∈ steps.map (·.id)} :=
    (List.finite_toSet (steps.map (·.id))).to_subtype
  letI : IsTrans {x : String // x ∈ steps.map (·.id)}
      (fun a b => Relation.TransGen (DepRel steps) a.val b.val) :=
    ⟨fun a b c hab hbc => hab.trans hbc⟩
  letI : IsIrrefl {x : String // x ∈ steps.map (·.id)}
      (fun a b => Relation.TransGen (DepRel steps) a.val b.val) :=
    ⟨fun a h => hnc ⟨a.val, h⟩⟩
  have hwfr := Finite.wellFounded_of_trans_of_irrefl
    (fun (a b : {x : String // x ∈ steps.map (·.id)}) =>
      Relation.TransGen (DepRel steps) a.val b.val)
  obtain ⟨m, hmS, hmin⟩ := hwfr.has_min {a | a.val ∉ out} ⟨⟨v0, hv0id⟩, hv0out⟩
  have hdeps : ∀ d ∈ depOf steps m.val, d ∈ out := by
    intro d hd
    have hdid : d ∈ steps.map (·.id) := depOf_sub_ids hwf hd
    by_contra hdout
    exact hmin ⟨d, hdid⟩ hdout
      (Relation.TransGen.single ((depRel_char hwf.1).mpr ⟨m.2, hd⟩))
  exact hout.blocked m.val m.2 hmS hdeps

/-- C6 (amended): for well-formed step lists, `topological_sort` raises the
cycle error exactly when the dependency graph has a cycle, and every
successful output satisfies the batch-stability the FIFO algorithm actually
provides: two distinct steps whose dependency sets become satisfied at the
same emission point appear in original-array order. -/
theorem topological_sort_cycle_iff_batch_stable {steps : List WStep}
    (hwf : WFSteps steps) :
    ((∃ e, topological_sort steps = Except.error e) ↔ HasCycle steps) ∧
    (∀ out, topological_sort steps = Except.ok out → BatchStable steps out) := by
  have hnd := hwf.1
  have hout := kahn_main hwf (steps.length + 1) [] _ _ (kahn_init hwf) (by simp)
  set rids := kahnLoop steps (steps.length + 1)
      (fun sid => ((depOf steps sid).length : Int))
      ((steps.filter fun st => ((depOf steps st.id).length : Int) = 0).map (·.id))
      with hrids
  have hridsnd : rids.Nodup := by simpa using hout.fullNodup
  obtain ⟨hmap, hlenr, hmemr⟩ :=
    filterMap_find_props hnd rids (fun x hx => hout.outSub x hx)
  set res := rids.filterMap fun sid => steps.find? (·.id = sid) with hresd
  have hts : topological_sort steps =
      if res.length ≠ steps.length then
        Except.error "Circular dependency detected among workflow steps"
      else Except.ok res := rfl
  have hrank : ∀ a b, DepRel steps a b → b ∈ rids →
      a ∈ rids ∧ rids.indexOf a < rids.indexOf b := by
    intro a b hab hb
    have hib : rids.indexOf b < rids.length := List.indexOf_lt_length.mpr hb
    have hgetb : rids.get ⟨rids.indexOf b, hib⟩ = b := List.indexOf_get hib
    have hsub := hout.topoFull (rids.indexOf b) hib
    simp only [List.nil_append] at hsub
    rw [hgetb] at hsub
    have hadep : a ∈ depOf steps b := ((depRel_char hnd).mp hab).2
    have ha2 : a ∈ rids.take (rids.indexOf b) := hsub a hadep
    exact ⟨List.mem_of_mem_take ha2, indexOf_lt_of_mem_take ha2⟩
  have hchain : ∀ a b, Relation.TransGen (DepRel steps) a b → b ∈ rids →
      a ∈ rids ∧ rids.indexOf a < rids.indexOf b := by
    intro a b htg
    induction htg with
    | single h => exact fun hb => hrank _ _ h hb
    | tail htg2 h ih =>
      intro hc
      obtain ⟨hbout, hlt1⟩ := hrank _ _ h hc
      obtain ⟨haout, hlt2⟩ := ih hbout
      exact ⟨haout, Nat.lt_trans hlt2 hlt1⟩
  have hforward : res.length = steps.length → ¬ HasCycle steps := by
    intro hlen hcyc
    have hlenids : rids.length = steps.length := by rw [← hlenr]; exact hlen
    have hsp : rids.Subperm (steps.map (·.id)) :=
      List.subperm_of_subset hridsnd hout.outSub
    have hperm : rids.Perm (steps.map (·.id)) :=
      hsp.perm_of_length_le (by rw [List.length_map, hlenids])
    obtain ⟨a, htg⟩ := hcyc
    have haids : a ∈ steps.map (·.id) := by
      cases htg with
      | single h => exact ((depRel_char hnd).mp h).1
      | tail _ h => exact ((depRel_char hnd).mp h).1
    have ha : a ∈ rids := hperm.mem_iff.mpr haids
    obtain ⟨_, hlt⟩ := hchain a a htg ha
    omega
  have hbackward : ¬ HasCycle steps → res.length = steps.length := by
    intro hnc
    have hall2 := acyclic_all_in hwf hout hnc
    have h1 : rids.length ≤ steps.length := by
      have := (List.subperm_of_subset hridsnd hout.outSub).length_le
      rwa [List.length_map] at this
    have h2 : steps.length ≤ rids.length := by
      have := (List.subperm_of_subset hnd hall2).length_le
      rwa [List.length_map] at this
    rw [hlenr]
    omega
  constructor
  · constructor
    · rintro ⟨e, he⟩
      by_contra hnc
      have hlen := hbackward hnc
      rw [hts, if_neg (fun h => h hlen)] at he
      simp at he
    · intro hcyc
      have hlenne : res.length ≠ steps.length := fun h => (hforward h) hcyc
      exact ⟨_, by rw [hts, if_pos hlenne]⟩
  · intro out hok
    rw [hts] at hok
    by_cases hc : res.length ≠ steps.length
    · rw [if_pos hc] at hok
      simp at hok
    · rw [if_neg hc] at hok
      have hout_eq : out = res := (Except.ok.inj hok).symm
      push_neg at hc
      subst hout_eq
      have hlenids : rids.length = steps.length := by rw [← hlenr]; exact hc
      have hsp : rids.Subperm (steps.map (·.id)) :=
        List.subperm_of_subset hridsnd hout.outSub
      have hperm : rids.Perm (steps.map (·.id)) :=
        hsp.perm_of_length_le (by rw [List.length_map, hlenids])
      intro u hu v hv hne hrp hlt
      rw [hmap] at hrp ⊢
      have hdu : depOf steps u.id = u.dependsOn := depOf_eq hnd hu
      have hdv : depOf steps v.id = v.dependsOn := depOf_eq hnd hv
      rw [← hdu, ← hdv] at hrp
      have hsubu : ∀ d ∈ depOf steps u.id, d ∈ rids := fun d hd =>
        hperm.mem_iff.mpr (depOf_sub_ids hwf hd)
      obtain ⟨k, hk, hrpu⟩ := readyPoint_some_of_sub hsubu
      have hrpv : readyPoint rids (depOf steps v.id) = some k := by
        rw [← hrp]
        exact hrpu
      exact hout.stable u.id v.id k (mem_ids_iff.mpr ⟨u, hu, rfl⟩)
        (mem_ids_iff.mpr ⟨v, hv, rfl⟩) hne hrpu hrpv hlt

/-- C6: counterexample to the claim as stated. On
`stabSteps = [A (depends on B), B, C]` the sort emits `[B, C, A]`, yet at the
moment `B` has been emitted both `A` (original position 0) and `C` (original
position 2) are ready, and `C` is emitted before `A`: the claimed
simultaneous-readiness stability of `topological_sort` fails, because a
step made ready by a pop joins the FIFO queue behind older entries. -/
theorem topological_sort_claimed_stability_cex :
    topological_sort stabSteps =
      Except.ok [⟨"B", []⟩, ⟨"C", []⟩, ⟨"A", ["B"]⟩] ∧
    ¬ ClaimedStable stabSteps [⟨"B", []⟩, ⟨"C", []⟩, ⟨"A", ["B"]⟩] := by
  constructor
  · rfl
  · intro h
    have := h 1 (by decide) ⟨"A", ["B"]⟩ (by decide) ⟨"C", []⟩ (by decide)
      (by decide) (by decide) (by decide) (by decide) (by decide) (by decide)
    exact absurd this (by decide)

/-- Witness for the amended C6 theorem: the concrete workflow `stabSteps` is
well-formed, so the cycle-iff-error and batch-stability conclusions hold of
its `topological_sort`. -/
theorem topological_sort_amended_witness :
    WFSteps stabSteps ∧
    (((∃ e, topological_sort stabSteps = Except.error e) ↔ HasCycle stabSteps) ∧
      (∀ out, topological_sort stabSteps = Except.ok out → BatchStable stabSteps out)) :=
  ⟨⟨by decide, by decide⟩, topological_sort_cycle_iff_batch_stable ⟨by decide, by decide⟩⟩
